import Mathlib

/-!
Shallow embedding of the izas-outdoor chatbot backend (`src/server.js`,
`src/concepts.js`).  Strings are modelled as `List Char`; JavaScript string
primitives (`toLowerCase`, `trim`, `includes`, `indexOf`, `substring`,
`split`, regex scanning) are given explicit executable models restricted to
the character repertoire the program actually manipulates.  Network fetches
are passed in as parameters (`Option` of the fetched record); floating-point
scores are modelled over `ℚ`.
-/

namespace Izas

/-- Strings are lists of characters (JS strings over the repertoire used here). -/
abbrev Str := List Char

/-- Coerce a Lean string literal to the `Str` representation. -/
def str (s : String) : Str := s.data

/-- Model of `String.prototype.toLowerCase`, restricted to ASCII letters and
the accented Spanish letters appearing in this repository's data. -/
def jsCharLower (c : Char) : Char :=
  if 'A' ≤ c ∧ c ≤ 'Z' then Char.ofNat (c.toNat + 32)
  else if c = 'Á' then 'á'
  else if c = 'É' then 'é'
  else if c = 'Í' then 'í'
  else if c = 'Ó' then 'ó'
  else if c = 'Ú' then 'ú'
  else if c = 'Ü' then 'ü'
  else if c = 'Ñ' then 'ñ'
  else c

/-- `toLowerCase` on a whole string. -/
def jsLowerL (l : Str) : Str := l.map jsCharLower

/-- Whitespace characters removed by `String.prototype.trim`. -/
def isJsSpace (c : Char) : Bool :=
  c = ' ' ∨ c = '\t' ∨ c = '\n' ∨ c = '\r' ∨ c = Char.ofNat 11 ∨ c = Char.ofNat 12

/-- Model of `String.prototype.trim`. -/
def jsTrim (l : Str) : Str :=
  ((l.dropWhile isJsSpace).reverse.dropWhile isJsSpace).reverse

/-- Does `l` start with `u`?  (model of a positional `startsWith` used to
define substring containment). -/
def startsL : Str → Str → Bool
  | _, [] => true
  | [], _ :: _ => false
  | c :: cs, d :: ds => c = d && startsL cs ds

/-- Model of `String.prototype.includes`: `u` occurs contiguously in `l`. -/
def containsL : Str → Str → Bool
  | [], u => u.isEmpty
  | c :: cs, u => startsL (c :: cs) u || containsL cs u

/-- `includesWord(q, word)` from `server.js`: whole-word containment via
space-delimited substring search. -/
def includesWord (q w : Str) : Bool :=
  containsL q ((' ' :: jsLowerL w) ++ [' '])

/-- Vowels of the `/[aeiouáéíóú]$/i` test in `colorVariants`. -/
def spanishVowels : List Char := ['a', 'e', 'i', 'o', 'u', 'á', 'é', 'í', 'ó', 'ú']

/-- `colorVariants(base)` from `server.js` (master version, lines 730-737):
grammatical variants of a canonical Spanish colour adjective. -/
def colorVariants (base : Str) : List Str :=
  let variants :=
    if base.getLast? = some 'o' then
      [base, base.dropLast ++ ['a'], base ++ ['s'],
        base.dropLast ++ ['o', 's'], base.dropLast ++ ['a', 's']]
    else if base.getLast? = some 'z' then
      [base, base.dropLast ++ ['c', 'e', 's']]
    else if (base.getLast?.map (fun c => decide (jsCharLower c ∈ spanishVowels))).getD false then
      [base, base ++ ['s']]
    else
      [base, base ++ ['e', 's']]
  variants.filter (fun v => !v.isEmpty)

/-! ### Order lookup (`getOrderStatus`, master version lines 849-866) -/

/-- First tracking info of the first fulfillment
(`order.fulfillments?.[0]?.trackingInfo?.[0]`); every field may be absent. -/
structure TrackingInfo where
  number : Option Str
  url : Option Str
  company : Option Str
  deriving DecidableEq

/-- The order record the Shopify query returns (already shaped as the code
consumes it). -/
structure OrderNode where
  name : Str
  email : Str
  displayFulfillmentStatus : Str
  tracking : Option TrackingInfo
  lineItems : List (Nat × Str)
  totalAmount : Option Str
  deriving DecidableEq

/-- The `data` object of a successful order lookup. -/
structure OrderData where
  id : Str
  status : Str
  trackingNumber : Str
  trackingUrl : Option Str
  carrier : Str
  items : Str
  price : Option Str
  deriving DecidableEq

/-- The order lookup result object `{found, reason?, data?}`. -/
structure OrderResult where
  found : Bool
  reason : Option Str
  data : Option OrderData
  deriving DecidableEq

/-- JS `a || d` for an optional string `a` ("" and absent are falsy). -/
def jsOrStr (o : Option Str) (d : Str) : Str :=
  match o with
  | some s => if s.isEmpty then d else s
  | none => d

/-- JS `a || null` for an optional string `a`. -/
def jsOrNull (o : Option Str) : Option Str :=
  match o with
  | some s => if s.isEmpty then none else some s
  | none => none

/-- `email.toLowerCase().trim()` as applied to both emails in the gate. -/
def normalizeEmail (e : Str) : Str := jsTrim (jsLowerL e)

/-- The forced DHL España tracking link built from a tracking number. -/
def dhlUrl (n : Str) : Str :=
  str "https://www.dhl.com/es-es/home/tracking.html?tracking-id=" ++ n
    ++ str "&submit=1"

/-- JS `join(sep)` on a list of strings. -/
def joinWith (sep : Str) : List Str → Str
  | [] => []
  | [x] => x
  | x :: y :: rest => x ++ sep ++ joinWith sep (y :: rest)

/-- `order.lineItems.edges.map(e => qty + "x " + title).join(", ")`. -/
def joinItems (items : List (Nat × Str)) : Str :=
  joinWith (str ", ") (items.map (fun it => str (toString it.1) ++ str "x " ++ it.2))

/-- The carrier string before code mapping:
`tracking?.company || (status === "UNFULFILLED" ? "Pendiente" : "Agencia")`. -/
def carrierCode (order : OrderNode) : Str :=
  jsOrStr (order.tracking.bind (·.company))
    (if order.displayFulfillmentStatus = str "UNFULFILLED" then str "Pendiente"
     else str "Agencia")

/-- `getOrderStatus` (master version, lines 849-866).  The network fetch is a
parameter: `none` models "no order node returned"; exceptions in the fetch
itself (the `catch` branch returning reason `"error"`) are outside the model. -/
def getOrderStatus (fetched : Option OrderNode) (userEmail : Str) : OrderResult :=
  match fetched with
  | none => ⟨false, some (str "not_found"), none⟩
  | some order =>
    if normalizeEmail order.email ≠ normalizeEmail userEmail then
      ⟨false, some (str "email_mismatch"), none⟩
    else
      let tracking := order.tracking
      let carrier0 := carrierCode order
      let trackingUrl0 := jsOrNull (tracking.bind (·.url))
      let carrier1 := if carrier0 = str "0002" then str "Correos Express" else carrier0
      let withDhl :=
        if carrier1 = str "0003" then
          (str "DHL",
            match jsOrNull (tracking.bind (·.number)) with
            | some n => some (dhlUrl n)
            | none => trackingUrl0)
        else (carrier1, trackingUrl0)
      ⟨true, none, some {
        id := order.name
        status := order.displayFulfillmentStatus
        trackingNumber := jsOrStr (tracking.bind (·.number)) (str "N/A")
        trackingUrl := withDhl.2
        carrier := withDhl.1
        items := joinItems order.lineItems
        price := order.totalAmount }⟩

/-! ### Product records and the candidate merger (lines 952-956) -/

/-- A product variant as stored in the in-memory index. -/
structure Variant where
  id : Str
  title : Str
  price : Str
  image : Str
  deriving DecidableEq

/-- A product record of the in-memory AI index (fields the modelled code
touches; the embedding vector is a list of rationals). -/
structure Product where
  id : Str
  title : Str
  price : Str
  image : Str
  variants : List Variant
  options : List (Str × List Str)
  embedding : List ℚ
  deriving DecidableEq

/-- JS `Map.prototype.set` on an insertion-ordered association list: an
existing key keeps its position and gets the new value, a fresh key is
appended. -/
def mapSet (m : List (Str × Product)) (k : Str) (v : Product) : List (Str × Product) :=
  if m.any (fun kv => kv.1 = k) then
    m.map (fun kv => if kv.1 = k then (k, v) else kv)
  else m ++ [(k, v)]

/-- Keys of the insertion-ordered map, in order. -/
def mapKeys (m : List (Str × Product)) : List Str := m.map (·.1)

/-- The map after inserting all visible/context products
(`contextProducts.forEach(p => combinedCandidates.set(String(p.id), p))`). -/
def visibleCandidates (contextProducts : List Product) : List (Str × Product) :=
  contextProducts.foldl (fun m p => mapSet m p.id p) []

/-- `combinedCandidates` (master version lines 952-954): visible products
first, then ranked search results only while the map size is below 10. -/
def combinedCandidates (contextProducts searchResults : List Product) :
    List (Str × Product) :=
  searchResults.foldl (fun m p => if m.length < 10 then mapSet m p.id p else m)
    (visibleCandidates contextProducts)

/-- `Array.from(combinedCandidates.values())`. -/
def finalCandidatesList (contextProducts searchResults : List Product) : List Product :=
  (combinedCandidates contextProducts searchResults).map (·.2)

/-- `aiIndex.filter(p => visible_ids.map(String).includes(String(p.id)))`. -/
def contextProductsOf (aiIndex : List Product) (visibleIds : List Str) : List Product :=
  aiIndex.filter (fun p => visibleIds.contains p.id)

/-- The candidate map one request builds from the index, the visible ids and
the ranked search results. -/
def candidateMapOfRequest (aiIndex : List Product) (visibleIds : List Str)
    (searchResults : List Product) : List (Str × Product) :=
  combinedCandidates (contextProductsOf aiIndex visibleIds) searchResults

/-! ### Similarity ranker (lines 938-948) -/

/-- `cosineSimilarity(a, b)` from `server.js`: a plain dot product (the code
assumes equal-length pre-normalised vectors). -/
def cosineSimilarity (a b : List ℚ) : ℚ :=
  (List.zipWith (· * ·) a b).sum

/-- Word characters of the JS regex `\w` / `\b` (ASCII letters, digits, `_`). -/
def isWordChar (c : Char) : Bool :=
  ('a' ≤ c && c ≤ 'z') || ('A' ≤ c && c ≤ 'Z') || ('0' ≤ c && c ≤ '9') || c = '_'

/-- Does a word boundary `\b` hold between a word character and the start of
this remaining text? -/
def boundaryAfter : Str → Bool
  | [] => true
  | c :: _ => !isWordChar c

/-- Digit test for the `\d` of the version regex. -/
def isDigitCh (c : Char) : Bool := '0' ≤ c && c ≤ '9'

/-- Try the version alternatives `v\d+|ii|iii` (case-insensitively) at the
start of `l`, returning the lowercased matched text.  Alternatives are tried
in the regex's order; `v\d+` takes the maximal digit run. -/
def tryVersion (l : Str) : Option Str :=
  match l with
  | [] => none
  | c :: rest =>
    if jsCharLower c = 'v' then
      let ds := rest.takeWhile isDigitCh
      if !ds.isEmpty && boundaryAfter (rest.drop ds.length) then some ('v' :: ds)
      else none
    else if jsCharLower c = 'i' then
      match rest with
      | [] => none
      | d :: rest2 =>
        if jsCharLower d = 'i' then
          if boundaryAfter rest2 then some (str "ii")
          else
            match rest2 with
            | [] => none
            | e :: rest3 =>
              if jsCharLower e = 'i' && boundaryAfter rest3 then some (str "iii")
              else none
        else none
    else none

/-- Left-to-right scan for the first match of `/\b(v\d+|ii|iii)\b/i`; the
boolean tracks whether the previous character was a word character (so `\b`
fails there). -/
def findVersionAux : Bool → Str → Option Str
  | _, [] => none
  | p, c :: rest =>
    match (if p then none else tryVersion (c :: rest)) with
    | some t => some t
    | none => findVersionAux (isWordChar c) rest

/-- `optimizedQuery.match(/\b(v\d+|ii|iii)\b/i)` followed by `toLowerCase()`:
the `targetVersion` of the ranker (`none` when the query has no version-like
token). -/
def findVersion (l : Str) : Option Str := findVersionAux false l

/-- JS `split(" ")` (splits on single spaces, keeping empty fragments). -/
def splitOnSpace : Str → List Str
  | [] => [[]]
  | c :: rest =>
    match splitOnSpace rest with
    | [] => [[c]]
    | s :: ss => if c = ' ' then [] :: s :: ss else (c :: s) :: ss

/-- The +0.3 keyword condition of the ranker: some token of the lowercased,
trimmed query longer than 3 characters occurs in the lowercased title. -/
def hasKeywordBoost (optimizedQuery : Str) (p : Product) : Bool :=
  (splitOnSpace (jsTrim (jsLowerL optimizedQuery))).any
    (fun kw => decide (3 < kw.length) && containsL (jsLowerL p.title) kw)

/-- The version bonus/penalty of the ranker as a separate quantity. -/
def versionAdjustment (optimizedQuery : Str) (p : Product) : ℚ :=
  match findVersion optimizedQuery with
  | none => 0
  | some tv => if containsL (jsLowerL p.title) tv then 4/10 else -(3/10)

/-- The adjusted score one product receives inside the `searchResults` map
step (master version lines 941-948): dot-product base plus lexical keyword
boost plus version bonus/penalty. -/
def searchScore (vector : List ℚ) (optimizedQuery : Str) (p : Product) : ℚ :=
  let base := cosineSimilarity vector p.embedding
  let titleLower := jsLowerL p.title
  let queryLower := jsTrim (jsLowerL optimizedQuery)
  let score :=
    base +
      (if (splitOnSpace queryLower).any
          (fun kw => decide (3 < kw.length) && containsL titleLower kw)
       then 3/10 else 0)
  match findVersion optimizedQuery with
  | none => score
  | some tv => score + (if containsL titleLower tv then 4/10 else -(3/10))

/-! ### Size-token rewrite (the `q.replace(/\b(xxl|xxxl|xxxxl)\b/gi, ...)`
step of `normalizeQuery`, master version lines 750-757) -/

/-- Strip `tok` (given lowercase) from the front of `l`, comparing
case-insensitively; returns the remainder. -/
def stripCI : Str → Str → Option Str
  | [], l => some l
  | _ :: _, [] => none
  | t :: ts, c :: cs => if jsCharLower c = t then stripCI ts cs else none

/-- Try one regex alternative `tok` at the current position, requiring the
trailing `\b`; on success yield the (lowercase) replacement and the rest. -/
def tryTok (tok repl : Str) (l : Str) : Option (Str × Str) :=
  match stripCI tok l with
  | some r => if boundaryAfter r then some (repl, r) else none
  | none => none

/-- Try the three alternatives `xxl|xxxl|xxxxl` in the regex's order at the
current position (their character prefixes are mutually exclusive, so the
cascade is faithful to the regex's backtracking). -/
def matchSize (l : Str) : Option (Str × Str) :=
  (tryTok (str "xxl") (str "2xl") l).orElse fun _ =>
    (tryTok (str "xxxl") (str "3xl") l).orElse fun _ =>
      tryTok (str "xxxxl") (str "4xl") l

/-- The scanning core of the global, case-insensitive size-token replace.
The boolean records whether the previous character of the original string was
a word character (`\b` fails when it was).  After a replacement the scan
continues past the matched token, whose last character `l` is a word
character.  The fuel argument only forces structural recursion; every call
site supplies at least the length of the scanned text, which suffices since
each step consumes at least one character. -/
def sizeRewriteAux : Nat → Bool → Str → Str
  | 0, _, l => l
  | _ + 1, _, [] => []
  | fuel + 1, prevW, c :: rest =>
    if prevW then c :: sizeRewriteAux fuel (isWordChar c) rest
    else
      match matchSize (c :: rest) with
      | some pr => pr.1 ++ sizeRewriteAux fuel true pr.2
      | none => c :: sizeRewriteAux fuel (isWordChar c) rest

/-- `q.replace(/\b(xxl|xxxl|xxxxl)\b/gi, ...)`: at the string start `\b`
holds before a word character, so the previous-character flag starts false. -/
def sizeRewrite (l : Str) : Str := sizeRewriteAux l.length false l

/-- Recursion equation for `sizeRewrite`'s scan at exactly-sufficient fuel,
stated through a fuel-free wrapper. -/
def sizeRun (p : Bool) (l : Str) : Str := sizeRewriteAux l.length p l

/-! ### Concept tables (`src/concepts.js`) and `normalizeQuery` -/

/-- One entry of `CONCEPTS` / `COLOR_CONCEPTS`: a canonical term and its
registered surface forms. -/
structure Concept where
  canonical : Str
  matchList : List Str
  deriving DecidableEq

/-- `CONCEPTS` from `src/concepts.js`, in object-insertion order. -/
def CONCEPTS : List Concept := [
  ⟨str "capucha", [str "gorro"]⟩,
  ⟨str "chaqueta", [str "chamarra", str "zamarra"]⟩,
  ⟨str "tercera_capa", [str "abrigo", str "anorak", str "chaquetón", str "cazadora"]⟩,
  ⟨str "tubular", [str "cuello", str "braga", str "calentador_de_cuello"]⟩,
  ⟨str "bufanda", [str "bufanda"]⟩,
  ⟨str "zapatillas", [str "zapatilla", str "deportivas", str "bambas", str "tenis",
    str "playeras", str "zapato", str "calzado", str "maripí", str "maripíes", str "maripís"]⟩,
  ⟨str "mochila", [str "bolsa"]⟩,
  ⟨str "pala", [str "raqueta"]⟩,
  ⟨str "chaqueta_de_fibra", [str "chaqueta_de_pluma", str "plumas", str "plumífero",
    str "plumíferos", str "bomber"]⟩,
  ⟨str "chaqueta_rellena", [str "chaqueta_de_pluma", str "plumas", str "plumífero",
    str "plumíferos", str "bomber"]⟩,
  ⟨str "frosty", [str "escarpines", str "cangrejeras"]⟩,
  ⟨str "chaqueta_impermeable", [str "chubasquero"]⟩,
  ⟨str "polo", [str "niqui"]⟩,
  ⟨str "botas_de_trekking", [str "botas_de_monte", str "calzado"]⟩,
  ⟨str "botas", [str "calzado"]⟩,
  ⟨str "chanclas", [str "calzado"]⟩,
  ⟨str "pantuflas", [str "calzado"]⟩,
  ⟨str "sandalias", [str "calzado"]⟩,
  ⟨str "trekking", [str "senderismo"]⟩,
  ⟨str "bastones", [str "palos"]⟩,
  ⟨str "pantalón_trekking", [str "pantalon_de_montaña"]⟩,
  ⟨str "zapatillas_de_descanso", [str "zuecos", str "zapatillas_casa", str "alpargatas"]⟩,
  ⟨str "mallas", [str "leggins", str "leggings", str "legins", str "legings"]⟩,
  ⟨str "polar", [str "forro"]⟩,
  ⟨str "chaqueta_larga", [str "parka"]⟩,
  ⟨str "mount-tex", [str "goretex"]⟩,
  ⟨str "chaqueta_de_punto", [str "rebeca"]⟩]

/-- `COLOR_CONCEPTS` from `src/concepts.js`, in object-insertion order. -/
def COLOR_CONCEPTS : List Concept := [
  ⟨str "amarillo", [str "gold honey", str "illuminating", str "illuminating/fair aqua",
    str "illuminating/navy blue", str "light yellow", str "light yellow/blue",
    str "light yellow/fair aqua", str "light yellow/illuminating", str "spring",
    str "spring/royal", str "spring/spring", str "yellow", str "yellow fluor",
    str "yellow fluor/black"]⟩,
  ⟨str "azul", [str "blue", str "blue river/bluemoon", str "blue/orange", str "celestial",
    str "celestial/illuminating", str "ceramic", str "ceramic/atlantic", str "ceramic/ceramic",
    str "ceramic/ceramic/fucsia", str "ceramic/dark purple", str "ceramic/fucsia fluor",
    str "coronet blue", str "coronet blue/light blue", str "fair aqua",
    str "fair aqua/diva pink", str "fair aqua/light yellow", str "fair aqua/yellow",
    str "grey blue/diva pink", str "ink blue", str "light blue", str "light blue/blue",
    str "light blue/coral fluor", str "light blue/coronet blue", str "light blue/navy blue",
    str "mineral blue", str "mineral blue/light blue", str "sky blue", str "turquoise",
    str "turquoise/charcoal", str "turquoise/smoke", str "turquoise/turquoise",
    str "atlantic", str "atlantic/ceramic", str "atlantic/lima", str "atlantic/opal/lima",
    str "blue indigo/diva pink", str "bluemoon", str "bluemoon/coral fluor",
    str "bluemoon/dark blue", str "bluemoon/silver", str "dark aqua", str "dark aqua/red",
    str "dark blue", str "grey blue/orange", str "jeans", str "light blue/ice/navy blue",
    str "navy blue", str "navy blue degraded", str "navy blue/aqua", str "navy blue/blue",
    str "navy blue/celestial/illuminati", str "navy blue/coral fluor",
    str "navy blue/fair aqua", str "navy blue/gold honey", str "navy blue/honey",
    str "navy blue/illuminating", str "navy blue/light blue", str "navy blue/light blue/coral",
    str "navy blue/light blue/diva pink", str "navy blue/rose", str "navy blue/fair aqua",
    str "navy/spring", str "royal", str "royal/coral fluor", str "royal/royal",
    str "royal/spring", str "royal/white/srping"]⟩,
  ⟨str "beige", [str "alfalfa/hielo", str "aluminio", str "aluminium/tapioca",
    str "aliminium", str "beige", str "beige/rose", str "stone", str "tapioca",
    str "tapioca/brown", str "toasted", str "tostado", str "tostado/alfalfa"]⟩,
  ⟨str "blanco", [str "hielo/alfalfa", str "white", str "white/atlantic", str "white/black",
    str "white/blue", str "white/diva pink", str "white/fair aqua", str "white/gold",
    str "white/lilac", str "white/menta", str "white/menta", str "white/multicolor",
    str "white/multicolour", str "white/navy blue", str "white/purple", str "white/silver",
    str "white/smoke/black", str "white/white", str "white/yellow fluor"]⟩,
  ⟨str "gris", [str "aluminio metal", str "aluminum/tapioca", str "charcoal",
    str "charcoal/lotus", str "charcoal/orange", str "dark grey", str "dark grey/black",
    str "dark grey/orange", str "grey", str "grey lilac", str "ice", str "silver",
    str "silver/black", str "silver/diva pink", str "smoke", str "smoke/black",
    str "smoke/black/red", str "smoke/blue river", str "smoke/ceramic",
    str "smoke/diva pink", str "smoke/lotus", str "smoke/orange", str "smoke/silver/lotus",
    str "smoke/turquoise"]⟩,
  ⟨str "marron", [str "almendra", str "brown", str "brown/dark brown", str "chocolate",
    str "natural", str "natural/chocolate"]⟩,
  ⟨str "morado", [str "dark purple", str "grey lilac/diva pink", str "lavanda", str "lilac",
    str "lilac grey", str "lilac/diva pink", str "lilac/purple", str "lilac/violet",
    str "orquidea", str "purple", str "violet", str "violet/diva pink",
    str "violet/grey lilac", str "violet/lilac", str "wine"]⟩,
  ⟨str "multicolor", [str "autumnal", str "dark atlantic/fair aqua/diva pink", str "logo",
    str "multicolor", str "multicolor 2", str "multicolor 3", str "pilar", str "virgen"]⟩,
  ⟨str "naranja", [str "apricot", str "cheddar", str "coral", str "coral fluor",
    str "coral fluor/navy blue", str "coral/jade", str "coral/wine", str "light orange"]⟩,
  ⟨str "negro", [str "black", str "black/black", str "black/dark grey",
    str "black/dark grey/orange", str "black/dark grey/royal", str "black/diva pink",
    str "black/fucsia", str "black/grey", str "black/light green", str "black/lilac",
    str "black/orange", str "black/red", str "black/royal", str "black/silver",
    str "black/smoke", str "black/white", str "black/yellow fluor"]⟩,
  ⟨str "rojo", [str "barberry", str "barberry/diva pink", str "beet red/diva pink",
    str "cherry", str "magenta", str "mineral red", str "mineral red/diva pink", str "red",
    str "red/black", str "red/red", str "red/smoke"]⟩,
  ⟨str "rosa", [str "crystal pink", str "crystal pink/rose", str "diva pink",
    str "diva pink/beet red", str "diva pink/magenta", str "diva pink/mineral red",
    str "diva pink/smoke", str "fucsia", str "fucsia fluor", str "fucsia fluor/yellow fluor",
    str "fucsia/black", str "fucsia/fucsia", str "light rose", str "lotus",
    str "lotus/silver", str "magenta/diva pink", str "pink", str "pink fluor",
    str "pink/silver", str "raspberry", str "rose", str "rose/dark rose",
    str "rose/ice/brown", str "rose/light rose"]⟩,
  ⟨str "verde", [str "alfalfa", str "alfalfa/lime", str "atlantic degraded", str "caki",
    str "caki/dark caki", str "dark atlantic", str "dark atlantic/diva pink",
    str "fair aqua", str "fair aqua/dark atlantic", str "fair aqua/dark atlantic/diva pink",
    str "fair aqua/fucsia", str "green", str "green/atlantic", str "green/fucsia",
    str "jade", str "light caki", str "light caki/peach", str "light green",
    str "light lime", str "light matcha/matcha", str "light menta",
    str "light menta/mineral blue", str "lima", str "lima/atlantic", str "lime",
    str "lime/royal", str "matcha", str "menta", str "menta/atlantic",
    str "menta/light yellow", str "menta/wasabi", str "menta/yellow",
    str "mineral blue/light menta", str "oil", str "opal", str "opal/atlantic",
    str "pino/naranja", str "wasabi"]⟩]

/-- `matches.join(" ")` (JS `Array.prototype.join` with a single space). -/
def joinSp (ms : List Str) : Str := joinWith [' '] ms

/-- Processing of one product concept inside `normalizeQuery`: append the
canonical (with a leading but no trailing space) when some synonym occurs as
a whole word; then append all synonyms when the canonical occurs as a whole
word. -/
def conceptStep (q : Str) (c : Concept) : Str :=
  let q1 := if c.matchList.any (fun m => includesWord q m) then q ++ (' ' :: c.canonical) else q
  if includesWord q1 c.canonical then q1 ++ (' ' :: joinSp c.matchList) else q1

/-- Processing of one colour concept inside `normalizeQuery`: append all the
colour's surface forms (plus a trailing space) when some grammatical variant
of the canonical occurs as a whole word. -/
def colorStep (q : Str) (c : Concept) : Str :=
  if (colorVariants c.canonical).any (fun v => includesWord q v) then
    q ++ (' ' :: joinSp c.matchList) ++ [' ']
  else q

/-- The template `` ` ${query.toLowerCase()} ` ``. -/
def padQ (l : Str) : Str := (' ' :: l) ++ [' ']

/-- `normalizeQuery` (master version, lines 739-760): lowercase and pad,
expand product concepts, expand colours, then rewrite size tokens. -/
def normalizeQuery (query : Str) : Str :=
  let q0 := padQ (jsLowerL query)
  let q1 := List.foldl conceptStep q0 CONCEPTS
  let q2 := List.foldl colorStep q1 COLOR_CONCEPTS
  sizeRewrite q2

/-! ### JSON extraction (`extractJSON`, master version lines 979-994) -/

/-- The characters `{` and `}`. -/
def lbraceC : Char := Char.ofNat 123

/-- See `lbraceC`. -/
def rbraceC : Char := Char.ofNat 125

/-- JSON values as produced by the modelled `JSON.parse` (numbers keep their
source text; numeric fidelity is irrelevant to the modelled claims). -/
inductive Json where
  | null
  | bool (b : Bool)
  | num (text : Str)
  | strv (s : Str)
  | arr (xs : List Json)
  | obj (kvs : List (Str × Json))

/-- JSON insignificant whitespace. -/
def jsonWs (c : Char) : Bool := c = ' ' ∨ c = '\t' ∨ c = '\n' ∨ c = '\r'

/-- Skip insignificant whitespace. -/
def skipWs (l : Str) : Str := l.dropWhile jsonWs

/-- Hexadecimal digit value, for `\u` escapes. -/
def hexVal (c : Char) : Option Nat :=
  if '0' ≤ c ∧ c ≤ '9' then some (c.toNat - '0'.toNat)
  else if 'a' ≤ c ∧ c ≤ 'f' then some (c.toNat - 'a'.toNat + 10)
  else if 'A' ≤ c ∧ c ≤ 'F' then some (c.toNat - 'A'.toNat + 10)
  else none

/-- Parse the body of a JSON string after the opening quote, handling escape
sequences; returns the decoded string and the rest after the closing quote. -/
def parseStringBody : Str → Str → Option (Str × Str)
  | [], _ => none
  | c :: rest, acc =>
    if c = '"' then some (acc, rest)
    else if c = '\\' then
      match rest with
      | [] => none
      | e :: r2 =>
        if e = '"' then parseStringBody r2 (acc ++ ['"'])
        else if e = '\\' then parseStringBody r2 (acc ++ ['\\'])
        else if e = '/' then parseStringBody r2 (acc ++ ['/'])
        else if e = 'b' then parseStringBody r2 (acc ++ [Char.ofNat 8])
        else if e = 'f' then parseStringBody r2 (acc ++ [Char.ofNat 12])
        else if e = 'n' then parseStringBody r2 (acc ++ ['\n'])
        else if e = 'r' then parseStringBody r2 (acc ++ ['\r'])
        else if e = 't' then parseStringBody r2 (acc ++ ['\t'])
        else if e = 'u' then
          match r2 with
          | h1 :: h2 :: h3 :: h4 :: r3 =>
            match hexVal h1, hexVal h2, hexVal h3, hexVal h4 with
            | some a, some b, some c2, some d =>
              parseStringBody r3 (acc ++ [Char.ofNat (((a * 16 + b) * 16 + c2) * 16 + d)])
            | _, _, _, _ => none
          | _ => none
        else none
    else if c.toNat < 32 then none
    else parseStringBody rest (acc ++ [c])

/-- Parse a JSON number token (sign, integer part with the leading-zero rule,
optional fraction and exponent); the raw text is kept. -/
def parseNumber (l : Str) : Option (Json × Str) :=
  let signAndRest : Str × Str := match l with
    | '-' :: r => (['-'], r)
    | _ => ([], l)
  let ds := signAndRest.2.takeWhile isDigitCh
  let r1 := signAndRest.2.drop ds.length
  if ds.isEmpty then none
  else if 1 < ds.length ∧ ds.head? = some '0' then none
  else
    let fracAndRest : Str × Str := match r1 with
      | '.' :: r2 => (('.' :: r2.takeWhile isDigitCh), r2.drop (r2.takeWhile isDigitCh).length)
      | _ => ([], r1)
    if fracAndRest.1 = ['.'] then none
    else
      let r2 := fracAndRest.2
      match r2 with
      | e :: r3 =>
        if e = 'e' ∨ e = 'E' then
          let signExp : Str × Str := match r3 with
            | '+' :: r4 => (['+'], r4)
            | '-' :: r4 => (['-'], r4)
            | _ => ([], r3)
          let es := signExp.2.takeWhile isDigitCh
          if es.isEmpty then none
          else some (Json.num (signAndRest.1 ++ ds ++ fracAndRest.1 ++ [e] ++ signExp.1 ++ es),
            signExp.2.drop es.length)
        else some (Json.num (signAndRest.1 ++ ds ++ fracAndRest.1), r2)
      | [] => some (Json.num (signAndRest.1 ++ ds ++ fracAndRest.1), [])

mutual

/-- Fuel-bounded recursive-descent parser for one JSON value. -/
def parseValue : Nat → Str → Option (Json × Str)
  | 0, _ => none
  | Nat.succ fuel, l =>
    match skipWs l with
    | [] => none
    | c :: rest =>
      if c = lbraceC then
        match skipWs rest with
        | [] => none
        | d :: r2 =>
          if d = rbraceC then some (Json.obj [], r2)
          else parseObjBody fuel (d :: r2) []
      else if c = '[' then
        match skipWs rest with
        | ']' :: r2 => some (Json.arr [], r2)
        | _ => parseArrBody fuel rest []
      else if c = '"' then
        (parseStringBody rest []).map (fun pr => (Json.strv pr.1, pr.2))
      else if c = 't' then
        match rest with
        | 'r' :: 'u' :: 'e' :: r2 => some (Json.bool true, r2)
        | _ => none
      else if c = 'f' then
        match rest with
        | 'a' :: 'l' :: 's' :: 'e' :: r2 => some (Json.bool false, r2)
        | _ => none
      else if c = 'n' then
        match rest with
        | 'u' :: 'l' :: 'l' :: r2 => some (Json.null, r2)
        | _ => none
      else parseNumber (c :: rest)

/-- Parse the members of a (non-empty) JSON object after its `{`. -/
def parseObjBody : Nat → Str → List (Str × Json) → Option (Json × Str)
  | 0, _, _ => none
  | Nat.succ fuel, l, acc =>
    match skipWs l with
    | '"' :: rest =>
      match parseStringBody rest [] with
      | none => none
      | some (k, r1) =>
        match skipWs r1 with
        | ':' :: r2 =>
          match parseValue fuel r2 with
          | none => none
          | some (v, r3) =>
            match skipWs r3 with
            | ',' :: r4 => parseObjBody fuel r4 (acc ++ [(k, v)])
            | d :: r4 =>
              if d = rbraceC then some (Json.obj (acc ++ [(k, v)]), r4) else none
            | [] => none
        | _ => none
    | _ => none

/-- Parse the elements of a (non-empty) JSON array after its `[`. -/
def parseArrBody : Nat → Str → List Json → Option (Json × Str)
  | 0, _, _ => none
  | Nat.succ fuel, l, acc =>
    match parseValue fuel l with
    | none => none
    | some (v, r1) =>
      match skipWs r1 with
      | ',' :: r2 => parseArrBody fuel r2 (acc ++ [v])
      | ']' :: r2 => some (Json.arr (acc ++ [v]), r2)
      | _ => none

end

/-- Model of `JSON.parse`: parse one value and require only whitespace after
it; `none` models a thrown `SyntaxError`. -/
def jsonParse (l : Str) : Option Json :=
  match parseValue (l.length + 1) l with
  | some (v, rest) => if skipWs rest = [] then some v else none
  | none => none

/-- JS `indexOf` for a single character (-1 when absent). -/
def jsIndexOfAux (l : Str) (c : Char) (i : Nat) : Int :=
  match l with
  | [] => -1
  | d :: rest => if d = c then (i : Int) else jsIndexOfAux rest c (i + 1)

/-- See `jsIndexOfAux`. -/
def jsIndexOf (l : Str) (c : Char) : Int := jsIndexOfAux l c 0

/-- JS `lastIndexOf` for a single character (-1 when absent). -/
def jsLastIndexOfAux (l : Str) (c : Char) (i : Nat) (best : Int) : Int :=
  match l with
  | [] => best
  | d :: rest => jsLastIndexOfAux rest c (i + 1) (if d = c then (i : Int) else best)

/-- See `jsLastIndexOfAux`. -/
def jsLastIndexOf (l : Str) (c : Char) : Int := jsLastIndexOfAux l c 0 (-1)

/-- JS `String.prototype.substring`: clamps both indices to the string and
swaps them when start exceeds end. -/
def jsSubstring (l : Str) (a b : Int) : Str :=
  let n : Int := l.length
  let a1 := min (max a 0) n
  let b1 := min (max b 0) n
  ((l.take (max a1 b1).toNat).drop (min a1 b1).toNat)

/-- `extractJSON` (master version lines 979-986): parse the substring from
the first `{` to the last `}` when both exist, otherwise parse the whole
text; `none` models the thrown parse exception. -/
def extractJSON (s : Str) : Option Json :=
  let first := jsIndexOf s lbraceC
  let last := jsLastIndexOf s rbraceC
  if first ≠ -1 ∧ last ≠ -1 then jsonParse (jsSubstring s first (last + 1))
  else jsonParse s

/-- The fixed safe fallback object assigned in the `catch` around
`extractJSON` (lines 988-994). -/
def fallbackContent : Json :=
  Json.obj [(str "reply", Json.strv (str "He encontrado estos productos:")),
    (str "products", Json.arr []),
    (str "category", Json.strv (str "ERROR_JSON"))]

/-- The overall structured-output extraction including the `try`/`catch`:
total, never propagating a parse failure. -/
def parseAIContent (s : Str) : Json := (extractJSON s).getD fallbackContent

/-! ### Result materializer (`finalProducts`) -/

/-- A product reference in the parsed model output: either a bare id or an
object `{id, variant_id?}`. -/
inductive ProdRef where
  | byId (id : Str)
  | byObj (id : Str) (variantId : Option Str)
  deriving DecidableEq

/-- `typeof aiProd === "object" ? aiProd.id : aiProd`. -/
def refTargetId : ProdRef → Str
  | .byId i => i
  | .byObj i _ => i

/-- One element of the response's `products` array: the (possibly sanitised)
record spread together with `displayImage` and `displayUrlParams`. -/
structure DisplayProduct where
  product : Product
  displayImage : Str
  displayUrlParams : Str
  deriving DecidableEq

/-- The fixed fallback image URL of the master materializer. -/
def defaultImage : Str :=
  str "https://cdn.shopify.com/s/files/1/0000/0000/t/1/assets/no-image.jpg"

/-- JS `s || d` on strings ("" is falsy). -/
def jsOrEmpty (s d : Str) : Str := if s.isEmpty then d else s

/-- The SANITIZACIÓN block of the master materializer (lines 1003-1010);
`variants`/`options` are always arrays in the model, so their `|| []`
defaults are identities. -/
def sanitize (p : Product) : Product :=
  { p with
    title := jsOrEmpty p.title (str "Producto Izas")
    price := jsOrEmpty p.price (str "0.00")
    image := jsOrEmpty p.image defaultImage }

/-- One step of the master materializer (lines 996-1024): resolve the id in
the final candidate list, sanitise, then resolve an optional variant whose
image is preferred for display.  `none` models the `return null` that
`filter(Boolean)` later drops. -/
def materializeOne (fcl : List Product) (r : ProdRef) : Option DisplayProduct :=
  match fcl.find? (fun p => p.id = refTargetId r) with
  | none => none
  | some original =>
    match r with
    | .byId _ => some ⟨sanitize original, (sanitize original).image, []⟩
    | .byObj _ none => some ⟨sanitize original, (sanitize original).image, []⟩
    | .byObj _ (some v0) =>
      if v0.isEmpty ∨ (sanitize original).variants.isEmpty then
        some ⟨sanitize original, (sanitize original).image, []⟩
      else
        match (sanitize original).variants.find? (fun v => v.id = v0) with
        | none => some ⟨sanitize original, (sanitize original).image, []⟩
        | some v =>
          some ⟨sanitize original,
            (if v.image.isEmpty then (sanitize original).image else v.image),
            str "?variant=" ++ v.id⟩

/-- `finalProducts` of the master endpoint: map then `filter(Boolean)`. -/
def finalProducts (fcl : List Product) (refs : List ProdRef) : List DisplayProduct :=
  refs.filterMap (materializeOne fcl)

/-- The per-product display construction of the earlier endpoint variant
(lines 632-646): no sanitisation, same variant-image preference. -/
def v1Display (original : Product) (r : ProdRef) : DisplayProduct :=
  match r with
  | .byId _ => ⟨original, original.image, []⟩
  | .byObj _ none => ⟨original, original.image, []⟩
  | .byObj _ (some v0) =>
    if v0.isEmpty then ⟨original, original.image, []⟩
    else
      match original.variants.find? (fun v => v.id = v0) with
      | none => ⟨original, original.image, []⟩
      | some v =>
        ⟨original, (if v.image.isEmpty then original.image else v.image),
          str "?variant=" ++ v.id⟩

/-- `finalProducts` of the earlier endpoint variant (lines 632-646), whose
`seenIds` set deduplicates by identifier keeping first mentions. -/
def finalProductsV1 (fcl : List Product) (refs : List ProdRef) : List DisplayProduct :=
  (refs.foldl
    (fun (st : List Str × List DisplayProduct) r =>
      match fcl.find? (fun p => p.id = refTargetId r) with
      | none => st
      | some original =>
        if st.1.contains original.id then st
        else (original.id :: st.1, st.2 ++ [v1Display original r]))
    ([], [])).2

/-! ### Spec-side helper definitions and sample records -/

/-- Is the character an `x` up to case? (all three size tokens start `xx`). -/
def isXch (c : Char) : Bool := jsCharLower c = 'x'

/-- A conservative safety predicate on a tracked occurrence `u`: while the
scanner's previous-character flag is `p`, no size-token match can start
inside `u`, whatever text follows it.  This holds when the character at a
potential match start is not an `x`, or the next character (still inside
`u`) is not an `x` — every size token starts with two `x`s. -/
def safeScan : Bool → Str → Bool
  | _, [] => true
  | p, c :: rest =>
    (p || !isXch c ||
      (match rest with
       | [] => false
       | d :: _ => !isXch d)) && safeScan (isWordChar c) rest

/-- The whole-word effect of the size-token rewrite on a single word. -/
def rewriteWord (w : Str) : Str :=
  if jsLowerL w = str "xxl" then str "2xl"
  else if jsLowerL w = str "xxxl" then str "3xl"
  else if jsLowerL w = str "xxxxl" then str "4xl"
  else w

/-- Space-delimited join with a leading and a trailing space,
`" w1 w2 ... wn "`. -/
def wordsJoin (ws : List Str) : Str := ws.foldr (fun w acc => ' ' :: (w ++ acc)) [' ']

/-- The reference record for a found order before carrier-code mapping. -/
def baseOrderData (order : OrderNode) : OrderData :=
  { id := order.name
    status := order.displayFulfillmentStatus
    trackingNumber := jsOrStr (order.tracking.bind (·.number)) (str "N/A")
    trackingUrl := jsOrNull (order.tracking.bind (·.url))
    carrier := carrierCode order
    items := joinItems order.lineItems
    price := order.totalAmount }

/-- A minimal product record with a given id. -/
def mkProduct (i : Str) : Product := ⟨i, [], [], [], [], [], []⟩

/-- A minimal product record with a given id and title. -/
def mkTitled (i t : Str) : Product := ⟨i, t, [], [], [], [], []⟩

/-- Sample order shipped by carrier code 0003 with a tracking number. -/
def sampleOrderDHL : OrderNode :=
  ⟨str "#1001", str "Ana@Izas.es ", str "FULFILLED",
    some ⟨some (str "123"), some (str "http://upstream.example/track"), some (str "0003")⟩,
    [(2, str "Chaqueta Alpine")], some (str "99.95")⟩

/-- The order data `getOrderStatus` returns for `sampleOrderDHL`. -/
def sampleDataDHL : OrderData :=
  ⟨str "#1001", str "FULFILLED", str "123", some (dhlUrl (str "123")), str "DHL",
    str "2x Chaqueta Alpine", some (str "99.95")⟩

/-- Eleven distinct products, more than the candidate cap. -/
def elevenProducts : List Product := (List.range 11).map (fun i => mkProduct (str (toString i)))

/-- Their ids, supplied as visible ids. -/
def elevenIds : List Str := (List.range 11).map (fun i => str (toString i))

/-- First-occurrence deduplication with an explicit seen set. -/
def dedupFirstAux (seen : List Str) : List Str → List Str
  | [] => []
  | k :: ks =>
    if seen.contains k then dedupFirstAux seen ks
    else k :: dedupFirstAux (k :: seen) ks

/-- First-occurrence deduplication of a key sequence. -/
def dedupFirst (ks : List Str) : List Str := dedupFirstAux [] ks

/-- The ids of the candidate records the model output's references resolve
to, in mention order (unknown references contribute nothing). -/
def resolvedIds (fcl : List Product) (refs : List ProdRef) : List Str :=
  refs.filterMap (fun r => (fcl.find? (fun p => p.id = refTargetId r)).map (·.id))

/-- A sample variant with its own image. -/
def sampleVariant : Variant :=
  ⟨str "V1", str "Rojo / M", str "49.95", str "https://img.example/variant.jpg"⟩

/-- A sample product carrying `sampleVariant`. -/
def sampleProdV : Product :=
  ⟨str "P1", str "Chaqueta", str "49.95", str "https://img.example/main.jpg",
    [sampleVariant], [], []⟩

/-! ## Helper lemmas for the size-token scanner -/

theorem stripCI_length {t l r : Str} (h : stripCI t l = some r) :
    r.length + t.length = l.length := by
  induction t generalizing l with
  | nil => simp [stripCI] at h; simp [h]
  | cons t ts ih =>
    cases l with
    | nil => simp [stripCI] at h
    | cons c cs =>
      simp only [stripCI] at h
      split at h
      · have := ih h
        simp [List.length_cons]
        omega
      · exact absurd h (by simp)

theorem tryTok_length {tok repl l : Str} {pr : Str × Str}
    (h : tryTok tok repl l = some pr) : pr.2.length + tok.length = l.length := by
  unfold tryTok at h
  split at h
  next r hs =>
    split at h
    · have hpr := Option.some_inj.mp h
      subst hpr
      exact stripCI_length hs
    · exact absurd h (by simp)
  next => exact absurd h (by simp)

theorem matchSize_length {l : Str} {pr : Str × Str}
    (h : matchSize l = some pr) : pr.2.length + 3 ≤ l.length := by
  unfold matchSize at h
  cases h1 : tryTok (str "xxl") (str "2xl") l with
  | some pr1 =>
    rw [h1] at h; simp [Option.orElse] at h; subst h
    have := tryTok_length h1; simp [str] at this; omega
  | none =>
    rw [h1] at h; simp only [Option.orElse] at h
    cases h2 : tryTok (str "xxxl") (str "3xl") l with
    | some pr2 =>
      rw [h2] at h; simp [Option.orElse] at h; subst h
      have := tryTok_length h2; simp [str] at this; omega
    | none =>
      rw [h2] at h; simp only [Option.orElse] at h
      have := tryTok_length h; simp [str] at this; omega

theorem sizeRewriteAux_nil (fuel : Nat) (p : Bool) : sizeRewriteAux fuel p [] = [] := by
  cases fuel <;> rfl

theorem sizeRewriteAux_congr : ∀ (fuel fuel' : Nat) (p : Bool) (l : Str),
    l.length ≤ fuel → l.length ≤ fuel' →
    sizeRewriteAux fuel p l = sizeRewriteAux fuel' p l := by
  intro fuel
  induction fuel with
  | zero =>
    intro fuel' p l h _
    have : l = [] := List.eq_nil_of_length_eq_zero (by omega)
    subst this
    rw [sizeRewriteAux_nil, sizeRewriteAux_nil]
  | succ fuel ih =>
    intro fuel' p l h h'
    cases l with
    | nil => rw [sizeRewriteAux_nil, sizeRewriteAux_nil]
    | cons c rest =>
      cases fuel' with
      | zero => simp at h'
      | succ fuel' =>
        simp only [sizeRewriteAux]
        have hr : rest.length ≤ fuel := by simp at h; omega
        have hr' : rest.length ≤ fuel' := by simp at h'; omega
        cases p with
        | true => simp [ih fuel' (isWordChar c) rest hr hr']
        | false =>
          cases hm : matchSize (c :: rest) with
          | none => simp [hm, ih fuel' (isWordChar c) rest hr hr']
          | some pr =>
            have hlen := matchSize_length hm
            simp only [List.length_cons] at hlen
            simp [hm, ih fuel' true pr.2 (by omega) (by omega)]

theorem sizeRewrite_eq_sizeRun (l : Str) : sizeRewrite l = sizeRun false l := rfl

theorem sizeRun_nil (p : Bool) : sizeRun p [] = [] := rfl

theorem sizeRun_cons (p : Bool) (c : Char) (rest : Str) :
    sizeRun p (c :: rest) =
      (if p then c :: sizeRun (isWordChar c) rest
       else
        match matchSize (c :: rest) with
        | some pr => pr.1 ++ sizeRun true pr.2
        | none => c :: sizeRun (isWordChar c) rest) := by
  show sizeRewriteAux (rest.length + 1) p (c :: rest) = _
  simp only [sizeRewriteAux]
  cases p with
  | true => rfl
  | false =>
    cases hm : matchSize (c :: rest) with
    | none => simp [hm, sizeRun]
    | some pr =>
      have hlen := matchSize_length hm
      simp only [List.length_cons] at hlen
      simp only [hm, sizeRun, Bool.false_eq_true, if_false]
      rw [sizeRewriteAux_congr rest.length pr.2.length true pr.2 (by omega) (by omega)]


/-! ## Claim theorems -/

/-- C8: the grammatical-variant set of a canonical colour adjective follows
the stated morphology: a base ending in `-o` also produces the `-a`, `-os`,
`-as` forms; a base ending in `-z` also produces the `-ces` form; a base
ending in another vowel also produces the `+s` form; any other base also
produces the `+es` form. -/
theorem colorVariants_morphology (base : Str) :
    (base.getLast? = some 'o' →
      base.dropLast ++ ['a'] ∈ colorVariants base ∧
      base.dropLast ++ ['o', 's'] ∈ colorVariants base ∧
      base.dropLast ++ ['a', 's'] ∈ colorVariants base) ∧
    (base.getLast? = some 'z' → base.dropLast ++ str "ces" ∈ colorVariants base) ∧
    (∀ c, base.getLast? = some c → c ≠ 'o' → c ≠ 'z' → jsCharLower c ∈ spanishVowels →
      base ++ ['s'] ∈ colorVariants base) ∧
    (∀ c, base.getLast? = some c → c ≠ 'o' → c ≠ 'z' → jsCharLower c ∉ spanishVowels →
      base ++ str "es" ∈ colorVariants base) := by
  refine ⟨fun h => ?_, fun h => ?_, fun c h ho hz hv => ?_, fun c h ho hz hv => ?_⟩
  · rw [colorVariants]
    simp only [if_pos h]
    refine ⟨List.mem_filter.mpr ⟨by simp, by simp⟩,
      List.mem_filter.mpr ⟨by simp, by simp⟩,
      List.mem_filter.mpr ⟨by simp, by simp⟩⟩
  · rw [colorVariants]
    have ho : ¬ base.getLast? = some 'o' := by rw [h]; decide
    simp only [if_neg ho, if_pos h, str]
    exact List.mem_filter.mpr ⟨by simp, by simp⟩
  · rw [colorVariants]
    have ho' : ¬ base.getLast? = some 'o' := by rw [h]; simp [ho]
    have hz' : ¬ base.getLast? = some 'z' := by rw [h]; simp [hz]
    have hv' : (base.getLast?.map (fun c => decide (jsCharLower c ∈ spanishVowels))).getD false
        = true := by rw [h]; simpa using hv
    simp only [if_neg ho', if_neg hz', if_pos hv']
    exact List.mem_filter.mpr ⟨by simp, by simp⟩
  · rw [colorVariants]
    have ho' : ¬ base.getLast? = some 'o' := by rw [h]; simp [ho]
    have hz' : ¬ base.getLast? = some 'z' := by rw [h]; simp [hz]
    have hv' : ¬ (base.getLast?.map (fun c => decide (jsCharLower c ∈ spanishVowels))).getD false
        = true := by rw [h]; simpa using hv
    simp only [if_neg ho', if_neg hz', if_neg hv', str]
    exact List.mem_filter.mpr ⟨by simp, by simp⟩

/-- Witness for C8: `"rojo"` yields `"roja"`, `"rojos"`, `"rojas"` and
`"gris"` yields `"grises"`. -/
theorem colorVariants_morphology_witness :
    str "roja" ∈ colorVariants (str "rojo") ∧
    str "rojos" ∈ colorVariants (str "rojo") ∧
    str "rojas" ∈ colorVariants (str "rojo") ∧
    str "grises" ∈ colorVariants (str "gris") := by
  have h1 := (colorVariants_morphology (str "rojo")).1 (by decide)
  have h2 := (colorVariants_morphology (str "gris")).2.2.2 's' (by decide) (by decide)
    (by decide) (by decide)
  exact ⟨h1.1, h1.2.1, h1.2.2, h2⟩

/-- C1: order data is returned exactly when an order record exists and its
stored email equals the supplied email after lowercasing and trimming; on a
mismatch the result is `found: false, reason: "email_mismatch"` with no data;
when no record exists it is `found: false, reason: "not_found"` with no
data. -/
theorem getOrderStatus_email_gate (fetched : Option OrderNode) (userEmail : Str) :
    ((getOrderStatus fetched userEmail).found = true ↔
      ∃ order, fetched = some order ∧
        normalizeEmail order.email = normalizeEmail userEmail) ∧
    ((getOrderStatus fetched userEmail).found = true →
      (getOrderStatus fetched userEmail).data ≠ none) ∧
    (∀ order, fetched = some order →
      normalizeEmail order.email ≠ normalizeEmail userEmail →
      getOrderStatus fetched userEmail = ⟨false, some (str "email_mismatch"), none⟩) ∧
    (fetched = none →
      getOrderStatus fetched userEmail = ⟨false, some (str "not_found"), none⟩) := by
  cases fetched with
  | none =>
    refine ⟨?_, ?_, ?_, ?_⟩
    · simp [getOrderStatus]
    · simp [getOrderStatus]
    · intro order h; exact absurd h (by simp)
    · intro _; rfl
  | some order =>
    by_cases he : normalizeEmail order.email = normalizeEmail userEmail
    · refine ⟨?_, ?_, ?_, ?_⟩
      · simp only [getOrderStatus, if_neg (not_not_intro he)]
        exact ⟨fun _ => ⟨order, rfl, he⟩, fun _ => trivial⟩
      · simp only [getOrderStatus, if_neg (not_not_intro he)]
        intro _; simp
      · intro o ho hne
        have : o = order := by injection ho.symm
        subst this
        exact absurd he hne
      · intro h; exact absurd h (by simp)
    · refine ⟨?_, ?_, ?_, ?_⟩
      · simp only [getOrderStatus, if_pos he]
        constructor
        · intro h; exact absurd h (by simp)
        · rintro ⟨o, ho, hmatch⟩
          have : o = order := by injection ho.symm
          subst this
          exact absurd hmatch he
      · simp only [getOrderStatus, if_pos he]
        intro h; exact absurd h (by simp)
      · intro o ho hne
        have : o = order := by injection ho.symm
        subst this
        simp only [getOrderStatus, if_pos he]
      · intro h; exact absurd h (by simp)

/-- Witness for C1: the sample order is found under a case/whitespace variant
of its stored email, and refused with `email_mismatch` under a different
local part. -/
theorem getOrderStatus_email_gate_witness :
    (getOrderStatus (some sampleOrderDHL) (str " ana@izas.ES")).found = true ∧
    getOrderStatus (some sampleOrderDHL) (str "anna@izas.es")
      = ⟨false, some (str "email_mismatch"), none⟩ := by
  constructor
  · exact (getOrderStatus_email_gate (some sampleOrderDHL) (str " ana@izas.ES")).1.mpr
      ⟨sampleOrderDHL, rfl, by decide⟩
  · exact (getOrderStatus_email_gate (some sampleOrderDHL) (str "anna@izas.es")).2.2.1
      sampleOrderDHL rfl (by decide)

/-- C10: for a found order, the returned `trackingUrl` is the upstream URL
(or `none` for a missing/empty upstream URL) whenever the carrier code is not
`"0003"`, or is `"0003"` without a tracking number; only code `"0003"` with a
tracking number substitutes the constructed DHL link; and the `"0002"`
mapping only renames the carrier, leaving every other field of the result as
in the unmapped record. -/
theorem getOrderStatus_trackingUrl_frame (order : OrderNode) (userEmail : Str)
    (d : OrderData) (h : (getOrderStatus (some order) userEmail).data = some d) :
    (carrierCode order ≠ str "0003" →
      d.trackingUrl = jsOrNull (order.tracking.bind (·.url))) ∧
    (carrierCode order = str "0003" → jsOrNull (order.tracking.bind (·.number)) = none →
      d.trackingUrl = jsOrNull (order.tracking.bind (·.url))) ∧
    (∀ n, carrierCode order = str "0003" →
      jsOrNull (order.tracking.bind (·.number)) = some n →
      d.trackingUrl = some (dhlUrl n)) ∧
    (carrierCode order = str "0002" →
      d = { baseOrderData order with carrier := str "Correos Express" }) := by
  have hcx : ¬ ((str "Correos Express") = str "0003") := by decide
  rw [getOrderStatus] at h
  split at h
  · exact absurd h (by simp)
  · simp only [Option.some_inj] at h
    subst h
    refine ⟨fun h3 => ?_, fun h3 hn => ?_, fun n h3 hn => ?_, fun h2 => ?_⟩
    · by_cases h2 : carrierCode order = str "0002"
      · rw [if_pos h2, if_neg hcx]
      · rw [if_neg h2, if_neg h3]
    · have h2 : ¬ carrierCode order = str "0002" := by rw [h3]; decide
      rw [if_neg h2, if_pos h3]
      simp [hn]
    · have h2 : ¬ carrierCode order = str "0002" := by rw [h3]; decide
      rw [if_neg h2, if_pos h3]
      simp [hn]
    · have h3 : ¬ carrierCode order = str "0003" := by rw [h2]; decide
      rw [if_pos h2, if_neg hcx]
      simp [baseOrderData]

theorem any_key_iff (m : List (Str × Product)) (k : Str) :
    (m.any (fun kv => kv.1 = k)) = true ↔ k ∈ mapKeys m := by
  rw [List.any_eq_true]
  constructor
  · rintro ⟨kv, hm, he⟩
    simp only [decide_eq_true_eq] at he
    exact he ▸ List.mem_map_of_mem _ hm
  · intro hm
    rcases List.mem_map.mp hm with ⟨kv, hkv, he⟩
    exact ⟨kv, hkv, by simp [he]⟩

theorem mapKeys_mapSet (m : List (Str × Product)) (k : Str) (v : Product) :
    mapKeys (mapSet m k v) = if k ∈ mapKeys m then mapKeys m else mapKeys m ++ [k] := by
  by_cases h : (m.any (fun kv => kv.1 = k)) = true
  · rw [mapSet, if_pos h, if_pos ((any_key_iff m k).mp h)]
    simp only [mapKeys, List.map_map]
    apply List.map_congr_left
    intro kv _
    by_cases hk : kv.1 = k
    · simp [hk]
    · simp [hk]
  · rw [mapSet, if_neg h, if_neg (fun hm => h ((any_key_iff m k).mpr hm))]
    simp [mapKeys]

theorem mapKeys_nodup_mapSet {m : List (Str × Product)} {k : Str} {v : Product}
    (h : (mapKeys m).Nodup) : (mapKeys (mapSet m k v)).Nodup := by
  rw [mapKeys_mapSet]
  split
  · exact h
  · next hk => simp [List.nodup_append, h, hk]

theorem length_mapSet (m : List (Str × Product)) (k : Str) (v : Product) :
    (mapSet m k v).length ≤ m.length + 1 := by
  unfold mapSet; split <;> simp

theorem mem_mapKeys_mapSet {m : List (Str × Product)} {k' k : Str} {v : Product}
    (h : k' ∈ mapKeys m) : k' ∈ mapKeys (mapSet m k v) := by
  rw [mapKeys_mapSet]; split <;> simp [h]

theorem self_mem_mapKeys_mapSet (m : List (Str × Product)) (k : Str) (v : Product) :
    k ∈ mapKeys (mapSet m k v) := by
  rw [mapKeys_mapSet]
  split
  · assumption
  · simp

theorem visibleFold_nodup :
    ∀ (ps : List Product) (m : List (Str × Product)), (mapKeys m).Nodup →
      (mapKeys (ps.foldl (fun m p => mapSet m p.id p) m)).Nodup := by
  intro ps
  induction ps with
  | nil => intro m h; exact h
  | cons p ps ih => intro m h; exact ih _ (mapKeys_nodup_mapSet h)

theorem visibleFold_mem_keep {k : Str} :
    ∀ (ps : List Product) (m : List (Str × Product)), k ∈ mapKeys m →
      k ∈ mapKeys (ps.foldl (fun m p => mapSet m p.id p) m) := by
  intro ps
  induction ps with
  | nil => intro m h; exact h
  | cons p ps ih => intro m h; exact ih _ (mem_mapKeys_mapSet h)

theorem visibleFold_mem_self :
    ∀ (ps : List Product) (m : List (Str × Product)) (p : Product), p ∈ ps →
      p.id ∈ mapKeys (ps.foldl (fun m p => mapSet m p.id p) m) := by
  intro ps
  induction ps with
  | nil => intro m p h; exact absurd h (by simp)
  | cons q ps ih =>
    intro m p h
    rcases List.mem_cons.mp h with h | h
    · subst h
      exact visibleFold_mem_keep ps _ (self_mem_mapKeys_mapSet m p.id p)
    · exact ih _ p h

theorem visibleFold_length :
    ∀ (ps : List Product) (m : List (Str × Product)),
      (ps.foldl (fun m p => mapSet m p.id p) m).length ≤ m.length + ps.length := by
  intro ps
  induction ps with
  | nil => intro m; simp
  | cons p ps ih =>
    intro m
    calc (List.foldl (fun m p => mapSet m p.id p) (mapSet m p.id p) ps).length
        ≤ (mapSet m p.id p).length + ps.length := ih _
      _ ≤ m.length + 1 + ps.length := by
          have := length_mapSet m p.id p; omega
      _ = m.length + (p :: ps).length := by simp; omega

theorem searchFold_nodup :
    ∀ (rs : List Product) (m : List (Str × Product)), (mapKeys m).Nodup →
      (mapKeys (rs.foldl (fun m p => if m.length < 10 then mapSet m p.id p else m) m)).Nodup := by
  intro rs
  induction rs with
  | nil => intro m h; exact h
  | cons p rs ih =>
    intro m h
    by_cases hl : m.length < 10
    · simpa [hl] using ih _ (mapKeys_nodup_mapSet h)
    · simpa [hl] using ih _ h

theorem searchFold_keys_extend :
    ∀ (rs : List Product) (m : List (Str × Product)),
      ∃ t, mapKeys (rs.foldl (fun m p => if m.length < 10 then mapSet m p.id p else m) m)
        = mapKeys m ++ t := by
  intro rs
  induction rs with
  | nil => intro m; exact ⟨[], by simp⟩
  | cons p rs ih =>
    intro m
    by_cases hl : m.length < 10
    · obtain ⟨t, ht⟩ := ih (mapSet m p.id p)
      rw [mapKeys_mapSet] at ht
      by_cases hk : p.id ∈ mapKeys m
      · refine ⟨t, ?_⟩
        simp only [List.foldl_cons, if_pos hl]
        rw [ht, if_pos hk]
      · refine ⟨p.id :: t, ?_⟩
        simp only [List.foldl_cons, if_pos hl]
        rw [ht, if_neg hk, List.append_assoc]
        rfl
    · obtain ⟨t, ht⟩ := ih m
      refine ⟨t, ?_⟩
      simp only [List.foldl_cons, if_neg hl]
      exact ht

theorem searchFold_length :
    ∀ (rs : List Product) (m : List (Str × Product)),
      (rs.foldl (fun m p => if m.length < 10 then mapSet m p.id p else m) m).length
        ≤ max m.length 10 := by
  intro rs
  induction rs with
  | nil => intro m; simp [Nat.le_max_left]
  | cons p rs ih =>
    intro m
    by_cases hl : m.length < 10
    · have h1 : (mapSet m p.id p).length ≤ 10 := by
        have := length_mapSet m p.id p; omega
      have h2 := ih (mapSet m p.id p)
      simp only [List.foldl_cons, if_pos hl]
      omega
    · have h2 := ih m
      simp only [List.foldl_cons, if_neg hl]
      exact h2

/-- Witness for C10: the sample 0003-order's URL is replaced by the DHL link. -/
theorem getOrderStatus_trackingUrl_frame_witness :
    (getOrderStatus (some sampleOrderDHL) (str "ana@izas.es")).data = some sampleDataDHL ∧
    sampleDataDHL.trackingUrl = some (dhlUrl (str "123")) := by
  refine ⟨by decide, ?_⟩
  exact (getOrderStatus_trackingUrl_frame sampleOrderDHL (str "ana@izas.es") sampleDataDHL
    (by decide)).2.2.1 (str "123") (by decide) (by decide)

/-- C2: the candidate merger inserts all visible records first (keyed by
identifier), then ranked results while under the cap; the resulting map's
keys are duplicate-free, the visible keys form a prefix (so no visible
record is evicted or displaced by a search hit), every visible product's id
is present, and the concrete example visible `[A,B]` + results `[B,C]`
yields exactly `[A,B,C]`. -/
theorem combinedCandidates_merge_spec (contextProducts searchResults : List Product) :
    (mapKeys (combinedCandidates contextProducts searchResults)).Nodup ∧
    (∃ t, mapKeys (combinedCandidates contextProducts searchResults)
      = mapKeys (visibleCandidates contextProducts) ++ t) ∧
    (∀ p, p ∈ contextProducts →
      p.id ∈ mapKeys (combinedCandidates contextProducts searchResults)) ∧
    ((finalCandidatesList [mkProduct (str "A"), mkProduct (str "B")]
        [mkProduct (str "B"), mkProduct (str "C")]).map (·.id)
      = [str "A", str "B", str "C"]) := by
  refine ⟨?_, ?_, ?_, by decide⟩
  · exact searchFold_nodup searchResults (visibleCandidates contextProducts)
      (visibleFold_nodup contextProducts [] (by simp [mapKeys]))
  · exact searchFold_keys_extend searchResults (visibleCandidates contextProducts)
  · intro p hp
    obtain ⟨t, ht⟩ := searchFold_keys_extend searchResults (visibleCandidates contextProducts)
    rw [combinedCandidates, ht]
    exact List.mem_append_left t (visibleFold_mem_self contextProducts [] p hp)

/-- Witness for C2: the membership clause applied to a concrete visible
product. -/
theorem combinedCandidates_merge_spec_witness :
    (mkProduct (str "A")).id ∈ mapKeys (combinedCandidates
      [mkProduct (str "A"), mkProduct (str "B")] [mkProduct (str "B"), mkProduct (str "C")]) :=
  (combinedCandidates_merge_spec [mkProduct (str "A"), mkProduct (str "B")]
    [mkProduct (str "B"), mkProduct (str "C")]).2.2.1 (mkProduct (str "A")) (by decide)

/-- C3 counterexample: with eleven distinct visible products the candidate
map holds eleven entries, exceeding the claimed bound of 10 — only the
search-result insertion is capped, not the visible insertion. -/
theorem combinedCandidates_cap_counterexample :
    10 < (candidateMapOfRequest elevenProducts elevenIds []).length := by decide

/-- C3 amended: the candidate map holds at most
`max (number of matching visible records) 10` entries; in particular the
claimed ≤10 bound holds whenever at most ten visible records match the
index. -/
theorem combinedCandidates_cap_amended (aiIndex : List Product) (visibleIds : List Str)
    (searchResults : List Product) :
    (candidateMapOfRequest aiIndex visibleIds searchResults).length
      ≤ max (contextProductsOf aiIndex visibleIds).length 10 ∧
    ((contextProductsOf aiIndex visibleIds).length ≤ 10 →
      (candidateMapOfRequest aiIndex visibleIds searchResults).length ≤ 10) := by
  have hvis : (visibleCandidates (contextProductsOf aiIndex visibleIds)).length
      ≤ (contextProductsOf aiIndex visibleIds).length := by
    have := visibleFold_length (contextProductsOf aiIndex visibleIds) []
    simpa using this
  have hmain : (candidateMapOfRequest aiIndex visibleIds searchResults).length
      ≤ max (contextProductsOf aiIndex visibleIds).length 10 := by
    have := searchFold_length searchResults (visibleCandidates (contextProductsOf aiIndex visibleIds))
    have hmax : max (visibleCandidates (contextProductsOf aiIndex visibleIds)).length 10
        ≤ max (contextProductsOf aiIndex visibleIds).length 10 := by omega
    calc (candidateMapOfRequest aiIndex visibleIds searchResults).length
        ≤ max (visibleCandidates (contextProductsOf aiIndex visibleIds)).length 10 := this
      _ ≤ max (contextProductsOf aiIndex visibleIds).length 10 := hmax
  exact ⟨hmain, fun hle => by omega⟩

/-- Witness for C3's amended bound at a small concrete request. -/
theorem combinedCandidates_cap_amended_witness :
    (candidateMapOfRequest [mkProduct (str "A")] [str "A"] [mkProduct (str "B")]).length ≤ 10 :=
  (combinedCandidates_cap_amended [mkProduct (str "A")] [str "A"] [mkProduct (str "B")]).2
    (by decide)

theorem searchScore_eq (vector : List ℚ) (q : Str) (p : Product) :
    searchScore vector q p = cosineSimilarity vector p.embedding
      + (if hasKeywordBoost q p then 3/10 else 0) + versionAdjustment q p := by
  unfold searchScore hasKeywordBoost versionAdjustment
  cases hv : findVersion q with
  | none => simp [hv]
  | some tv => simp [hv]

theorem ite_boost_cases (b : Bool) :
    (if b then (3 : ℚ)/10 else 0) = 3/10 ∨ (if b then (3 : ℚ)/10 else 0) = 0 := by
  cases b
  · right; rfl
  · left; rfl

/-- C4 counterexample: on query `"abcd v2"` (version token `v2`), an item
titled `"zzz v2"` and an item titled `"abcd"` have identical base similarity,
yet the v2-titled item outranks the other by only 2/5 — the claimed minimum
margin of 7/10 fails, because the keyword boost applies to the other item. -/
theorem searchScore_margin_counterexample :
    cosineSimilarity [] (mkTitled (str "A") (str "zzz v2")).embedding
      = cosineSimilarity [] (mkTitled (str "B") (str "abcd")).embedding ∧
    findVersion (str "abcd v2") = some (str "v2") ∧
    containsL (jsLowerL (mkTitled (str "A") (str "zzz v2")).title) (str "v2") = true ∧
    containsL (jsLowerL (mkTitled (str "B") (str "abcd")).title) (str "v2") = false ∧
    searchScore [] (str "abcd v2") (mkTitled (str "A") (str "zzz v2"))
      - searchScore [] (str "abcd v2") (mkTitled (str "B") (str "abcd")) = 2/5 ∧
    ¬ ((7/10 : ℚ) ≤ 2/5) := by
  refine ⟨by decide, by decide, by decide, by decide, ?_, by norm_num⟩
  have hv : findVersion (str "abcd v2") = some (str "v2") := by decide
  rw [searchScore_eq, searchScore_eq]
  have h1 : hasKeywordBoost (str "abcd v2") (mkTitled (str "A") (str "zzz v2")) = false := by
    decide
  have h2 : hasKeywordBoost (str "abcd v2") (mkTitled (str "B") (str "abcd")) = true := by
    decide
  have h3 : versionAdjustment (str "abcd v2") (mkTitled (str "A") (str "zzz v2")) = 4/10 := by
    simp only [versionAdjustment, hv]
    rw [if_pos (by decide)]
  have h4 : versionAdjustment (str "abcd v2") (mkTitled (str "B") (str "abcd")) = -(3/10) := by
    simp only [versionAdjustment, hv]
    rw [if_neg (by decide)]
  rw [h1, h2, h3, h4]
  have hc : ∀ l : List ℚ, cosineSimilarity [] l = 0 := by
    intro l; simp [cosineSimilarity]
  rw [hc, hc]
  norm_num

/-- C4 (amended): the adjusted score equals the base dot product plus 0.3
for the keyword condition plus the version bonus/penalty; given identical
base similarity and a version token present in one title but not the other,
the version-titled item outranks the other by at least 2/5 in general, and
by exactly 7/10 when the two items' keyword-boost status coincides. -/
theorem searchScore_adjustments (vector : List ℚ) (q : Str) :
    (∀ p, searchScore vector q p = cosineSimilarity vector p.embedding
      + (if hasKeywordBoost q p then 3/10 else 0) + versionAdjustment q p) ∧
    (∀ pA pB tv,
      cosineSimilarity vector pA.embedding = cosineSimilarity vector pB.embedding →
      findVersion q = some tv →
      containsL (jsLowerL pA.title) tv = true →
      containsL (jsLowerL pB.title) tv = false →
      (2/5 : ℚ) ≤ searchScore vector q pA - searchScore vector q pB ∧
      (hasKeywordBoost q pA = hasKeywordBoost q pB →
        searchScore vector q pA - searchScore vector q pB = 7/10)) := by
  refine ⟨searchScore_eq vector q, ?_⟩
  intro pA pB tv hbase hv hA hB
  have hvA : versionAdjustment q pA = 4/10 := by
    simp only [versionAdjustment, hv]
    rw [if_pos hA]
  have hvB : versionAdjustment q pB = -(3/10) := by
    simp only [versionAdjustment, hv]
    rw [if_neg (by simp [hB])]
  rw [searchScore_eq, searchScore_eq, hbase, hvA, hvB]
  constructor
  · rcases ite_boost_cases (hasKeywordBoost q pA) with h1 | h1 <;>
      rcases ite_boost_cases (hasKeywordBoost q pB) with h2 | h2 <;>
      rw [h1, h2] <;> linarith
  · intro hkw
    rw [hkw]
    rcases ite_boost_cases (hasKeywordBoost q pB) with h1 | h1 <;> rw [h1] <;> linarith

/-- Witness for C4's amended margin on concrete items with equal keyword
status. -/
theorem searchScore_adjustments_witness :
    (2/5 : ℚ) ≤ searchScore [] (str "abcd v2") (mkTitled (str "A") (str "zzz v2"))
      - searchScore [] (str "abcd v2") (mkTitled (str "B") (str "yyy")) ∧
    searchScore [] (str "abcd v2") (mkTitled (str "A") (str "zzz v2"))
      - searchScore [] (str "abcd v2") (mkTitled (str "B") (str "yyy")) = 7/10 := by
  have h := (searchScore_adjustments [] (str "abcd v2")).2
    (mkTitled (str "A") (str "zzz v2")) (mkTitled (str "B") (str "yyy")) (str "v2")
    (by decide) (by decide) (by decide) (by decide)
  exact ⟨h.1, h.2 (by decide)⟩

theorem jsIndexOfAux_spec {c : Char} :
    ∀ (pre rest : Str) (i : Nat), c ∉ pre →
      jsIndexOfAux (pre ++ c :: rest) c i = (i : Int) + pre.length := by
  intro pre
  induction pre with
  | nil => intro rest i _; simp [jsIndexOfAux]
  | cons d pre ih =>
    intro rest i h
    have hd : ¬ d = c := fun he => h (by simp [he])
    have step : jsIndexOfAux ((d :: pre) ++ c :: rest) c i
        = jsIndexOfAux (pre ++ c :: rest) c (i + 1) := by
      show (if d = c then (i : Int) else jsIndexOfAux (pre ++ c :: rest) c (i + 1)) = _
      rw [if_neg hd]
    rw [step, ih rest (i + 1) (fun hm => h (List.mem_cons_of_mem d hm))]
    simp only [List.length_cons]
    push_cast
    ring

theorem jsIndexOf_spec {c : Char} (pre rest : Str) (h : c ∉ pre) :
    jsIndexOf (pre ++ c :: rest) c = pre.length := by
  rw [jsIndexOf, jsIndexOfAux_spec pre rest 0 h]
  simp

theorem jsLastIndexOfAux_not_mem {c : Char} :
    ∀ (l : Str) (i : Nat) (best : Int), c ∉ l → jsLastIndexOfAux l c i best = best := by
  intro l
  induction l with
  | nil => intro i best _; rfl
  | cons d l ih =>
    intro i best h
    have hd : ¬ d = c := fun he => h (by simp [he])
    simp only [jsLastIndexOfAux, if_neg hd]
    exact ih (i + 1) best (fun hm => h (List.mem_cons_of_mem d hm))

theorem jsLastIndexOfAux_spec {c : Char} :
    ∀ (pre post : Str) (i : Nat) (best : Int), c ∉ post →
      jsLastIndexOfAux (pre ++ c :: post) c i best = (i : Int) + pre.length := by
  intro pre
  induction pre with
  | nil =>
    intro post i best h
    have step : jsLastIndexOfAux ([] ++ c :: post) c i best
        = jsLastIndexOfAux post c (i + 1) (i : Int) := by
      show jsLastIndexOfAux post c (i + 1) (if c = c then (i : Int) else best) = _
      rw [if_pos rfl]
    rw [step, jsLastIndexOfAux_not_mem post (i + 1) _ h]
    simp
  | cons d pre ih =>
    intro post i best h
    have step : jsLastIndexOfAux ((d :: pre) ++ c :: post) c i best
        = jsLastIndexOfAux (pre ++ c :: post) c (i + 1) (if d = c then (i : Int) else best) := by
      rfl
    rw [step, ih post (i + 1) _ h]
    simp only [List.length_cons]
    push_cast
    ring

theorem jsLastIndexOf_spec {c : Char} (pre post : Str) (h : c ∉ post) :
    jsLastIndexOf (pre ++ c :: post) c = pre.length := by
  rw [jsLastIndexOf, jsLastIndexOfAux_spec pre post 0 (-1) h]
  simp

theorem jsSubstring_decomp (pre u post : Str) (a b : Int)
    (ha : a = pre.length) (hb : b = a + u.length) :
    jsSubstring ((pre ++ u) ++ post) a b = u := by
  subst ha
  subst hb
  simp only [jsSubstring]
  have hlen : (((pre ++ u) ++ post).length : Int)
      = (pre.length : Int) + u.length + post.length := by
    push_cast [List.length_append]
    ring
  rw [hlen]
  have ha : min (max (pre.length : Int) 0) ((pre.length : Int) + u.length + post.length)
      = pre.length := by omega
  have hb : min (max ((pre.length : Int) + u.length) 0)
      ((pre.length : Int) + u.length + post.length) = (pre.length : Int) + u.length := by
    omega
  rw [ha, hb]
  have hmin : min ((pre.length : Int)) ((pre.length : Int) + u.length)
      = (pre.length : Int) := by omega
  have hmax : max ((pre.length : Int)) ((pre.length : Int) + u.length)
      = (pre.length : Int) + u.length := by omega
  rw [hmin, hmax]
  have ht1 : ((pre.length : Int) + u.length).toNat = pre.length + u.length := by omega
  have ht2 : ((pre.length : Int)).toNat = pre.length := by omega
  rw [ht1, ht2]
  rw [List.take_left' (by simp : (pre ++ u).length = pre.length + u.length)]
  exact List.drop_left pre u

/-- C5: the structured-output extraction parses exactly the substring from
the first `{` to the last `}` (so a JSON object wrapped in commentary parses
to that object, as in the concrete example), and on any text where
extraction fails the result is the fixed safe fallback object — the overall
extraction is a total function that never propagates a parse exception. -/
theorem extractJSON_spec :
    (∀ pre mid post, lbraceC ∉ pre → rbraceC ∉ post →
      extractJSON ((pre ++ (lbraceC :: (mid ++ [rbraceC]))) ++ post)
        = jsonParse (lbraceC :: (mid ++ [rbraceC]))) ∧
    parseAIContent (str "Here you go: \x7b\"reply\":\"hi\",\"products\":[]\x7d thanks")
      = Json.obj [(str "reply", Json.strv (str "hi")), (str "products", Json.arr [])] ∧
    (∀ s, extractJSON s = none → parseAIContent s = fallbackContent) := by
  refine ⟨?_, by rfl, ?_⟩
  · intro pre mid post hpre hpost
    have h1 : jsIndexOf ((pre ++ (lbraceC :: (mid ++ [rbraceC]))) ++ post) lbraceC
        = pre.length := by
      have hshape : (pre ++ (lbraceC :: (mid ++ [rbraceC]))) ++ post
          = pre ++ lbraceC :: ((mid ++ [rbraceC]) ++ post) := by
        simp [List.append_assoc]
      rw [hshape]
      exact jsIndexOf_spec pre _ hpre
    have h2 : jsLastIndexOf ((pre ++ (lbraceC :: (mid ++ [rbraceC]))) ++ post) rbraceC
        = (pre ++ lbraceC :: mid).length := by
      have hshape : (pre ++ (lbraceC :: (mid ++ [rbraceC]))) ++ post
          = (pre ++ lbraceC :: mid) ++ rbraceC :: post := by
        simp [List.append_assoc]
      rw [hshape]
      exact jsLastIndexOf_spec (pre ++ lbraceC :: mid) post hpost
    simp only [extractJSON]
    rw [h1, h2]
    rw [if_pos ⟨by omega, by omega⟩]
    rw [jsSubstring_decomp pre (lbraceC :: (mid ++ [rbraceC])) post _ _ rfl
      (by push_cast [List.length_append, List.length_cons, List.length_nil]; ring)]
  · intro s h
    rw [parseAIContent, h]
    rfl

/-- Witness for C5: the example text parses to the inner object via the
first-`{`/last-`}` rule, and a braceless text falls back safely. -/
theorem extractJSON_spec_witness :
    extractJSON ((str "Here you go: " ++ (lbraceC ::
        (str "\"reply\":\"hi\",\"products\":[]" ++ [rbraceC]))) ++ str " thanks")
      = jsonParse (lbraceC :: (str "\"reply\":\"hi\",\"products\":[]" ++ [rbraceC])) ∧
    parseAIContent (str "no json at all") = fallbackContent := by
  constructor
  · exact extractJSON_spec.1 (str "Here you go: ") (str "\"reply\":\"hi\",\"products\":[]")
      (str " thanks") (by decide) (by decide)
  · exact extractJSON_spec.2.2 (str "no json at all") (by rfl)

theorem materializeOne_product {fcl : List Product} {r : ProdRef} {d : DisplayProduct}
    (h : materializeOne fcl r = some d) :
    ∃ p, fcl.find? (fun p => p.id = refTargetId r) = some p ∧ d.product = sanitize p := by
  cases r with
  | byId i =>
    unfold materializeOne at h
    split at h
    · exact absurd h (by simp)
    next p hp =>
      refine ⟨p, hp, ?_⟩
      rw [(Option.some_inj.mp h).symm]
  | byObj i vid =>
    cases vid with
    | none =>
      unfold materializeOne at h
      split at h
      · exact absurd h (by simp)
      next p hp =>
        refine ⟨p, hp, ?_⟩
        rw [(Option.some_inj.mp h).symm]
    | some v0 =>
      unfold materializeOne at h
      split at h
      · exact absurd h (by simp)
      next p hp =>
        refine ⟨p, hp, ?_⟩
        replace h : (if v0.isEmpty = true ∨ (sanitize p).variants.isEmpty = true then
              some (⟨sanitize p, (sanitize p).image, []⟩ : DisplayProduct)
            else
              match (sanitize p).variants.find? (fun v => v.id = v0) with
              | none => some (⟨sanitize p, (sanitize p).image, []⟩ : DisplayProduct)
              | some v =>
                some (⟨sanitize p,
                  (if v.image.isEmpty then (sanitize p).image else v.image),
                  str "?variant=" ++ v.id⟩ : DisplayProduct)) = some d := h
        by_cases h1 : (v0.isEmpty = true ∨ (sanitize p).variants.isEmpty = true)
        · rw [if_pos h1] at h
          rw [(Option.some_inj.mp h).symm]
        · rw [if_neg h1] at h
          cases hfv : (sanitize p).variants.find? (fun v => v.id = v0) with
          | none =>
            simp only [hfv] at h
            rw [(Option.some_inj.mp h).symm]
          | some v =>
            simp only [hfv] at h
            rw [(Option.some_inj.mp h).symm]

theorem materializeOne_none {fcl : List Product} {r : ProdRef}
    (h : fcl.find? (fun p => p.id = refTargetId r) = none) :
    materializeOne fcl r = none := by
  unfold materializeOne
  rw [h]

theorem v1Display_product (original : Product) (r : ProdRef) :
    (v1Display original r).product = original := by
  cases r with
  | byId _ => rfl
  | byObj _ vid =>
    cases vid with
    | none => rfl
    | some v0 =>
      simp only [v1Display]
      split
      · rfl
      · split <;> rfl

theorem mem_dedupFirstAux {k : Str} :
    ∀ (ks : List Str) (seen : List Str), k ∈ dedupFirstAux seen ks →
      seen.contains k = false := by
  intro ks
  induction ks with
  | nil => intro seen h; exact absurd h (by simp [dedupFirstAux])
  | cons k' ks ih =>
    intro seen h
    rw [dedupFirstAux] at h
    split at h
    · exact ih seen h
    · next hk' =>
      rcases List.mem_cons.mp h with h | h
      · subst h
        simpa using hk'
      · have := ih (k' :: seen) h
        simp only [List.contains_cons, Bool.or_eq_false_iff] at this
        exact this.2

theorem dedupFirstAux_nodup :
    ∀ (ks : List Str) (seen : List Str), (dedupFirstAux seen ks).Nodup := by
  intro ks
  induction ks with
  | nil => intro seen; simp [dedupFirstAux]
  | cons k ks ih =>
    intro seen
    rw [dedupFirstAux]
    split
    · exact ih seen
    · refine List.nodup_cons.mpr ⟨?_, ih (k :: seen)⟩
      intro hmem
      have := mem_dedupFirstAux ks (k :: seen) hmem
      simp at this

theorem finalProductsV1_fold (fcl : List Product) :
    ∀ (refs : List ProdRef) (seen : List Str) (acc : List DisplayProduct),
      ((refs.foldl
        (fun (st : List Str × List DisplayProduct) r =>
          match fcl.find? (fun p => p.id = refTargetId r) with
          | none => st
          | some original =>
            if st.1.contains original.id then st
            else (original.id :: st.1, st.2 ++ [v1Display original r]))
        (seen, acc)).2).map (fun d => d.product.id)
      = acc.map (fun d => d.product.id) ++ dedupFirstAux seen (resolvedIds fcl refs) := by
  intro refs
  induction refs with
  | nil => intro seen acc; simp [resolvedIds, dedupFirstAux]
  | cons r refs ih =>
    intro seen acc
    simp only [List.foldl_cons]
    cases hf : fcl.find? (fun p => p.id = refTargetId r) with
    | none =>
      have hres : resolvedIds fcl (r :: refs) = resolvedIds fcl refs := by
        simp [resolvedIds, List.filterMap_cons, hf]
      rw [hres]
      simp only [hf]
      exact ih seen acc
    | some p =>
      have hres : resolvedIds fcl (r :: refs) = p.id :: resolvedIds fcl refs := by
        simp [resolvedIds, List.filterMap_cons, hf]
      rw [hres]
      simp only [hf]
      by_cases hc : seen.contains p.id = true
      · rw [dedupFirstAux, if_pos hc, if_pos hc]
        exact ih seen acc
      · rw [dedupFirstAux, if_neg hc, if_neg hc]
        rw [ih (p.id :: seen) (acc ++ [v1Display p r])]
        simp [v1Display_product]

/-- C6 counterexample: in the master endpoint's materializer a candidate id
referenced twice appears twice in the final product list — there is no
`seenIds` deduplication in that variant. -/
theorem finalProducts_dedup_counterexample :
    ((finalProducts [mkProduct (str "A")]
        [ProdRef.byId (str "A"), ProdRef.byId (str "A")]).map
      (fun d => d.product.id)) = [str "A", str "A"] ∧
    ¬ (finalProducts [mkProduct (str "A")]
        [ProdRef.byId (str "A"), ProdRef.byId (str "A")]).length = 1 := by
  constructor
  · rfl
  · decide

/-- C6 (amended): each materialized product resolves inside the final
candidate list only (unknown ids are silently dropped, not an error), a
referenced variant's image is preferred for display; in the master endpoint
a repeated id appears once per mention, while the earlier endpoint variant's
materializer deduplicates ids to their first mention, in mention order. -/
theorem finalProducts_materialize_spec (fcl : List Product) (refs : List ProdRef) :
    (∀ d, d ∈ finalProducts fcl refs → ∃ p, p ∈ fcl ∧ d.product = sanitize p) ∧
    (∀ r, (∀ p, p ∈ fcl → ¬ p.id = refTargetId r) →
      finalProducts fcl (r :: refs) = finalProducts fcl refs) ∧
    (∀ tid vid p v, fcl.find? (fun p => p.id = tid) = some p →
      ¬ vid.isEmpty = true →
      (sanitize p).variants.find? (fun w => w.id = vid) = some v →
      ¬ v.image.isEmpty = true →
      materializeOne fcl (ProdRef.byObj tid (some vid))
        = some ⟨sanitize p, v.image, str "?variant=" ++ v.id⟩) ∧
    ((finalProductsV1 fcl refs).map (fun d => d.product.id)
      = dedupFirst (resolvedIds fcl refs)) ∧
    ((finalProductsV1 fcl refs).map (fun d => d.product.id)).Nodup := by
  have hv1 : (finalProductsV1 fcl refs).map (fun d => d.product.id)
      = dedupFirst (resolvedIds fcl refs) := by
    have := finalProductsV1_fold fcl refs [] []
    simpa [finalProductsV1, dedupFirst] using this
  refine ⟨?_, ?_, ?_, hv1, ?_⟩
  · intro d hd
    rcases List.mem_filterMap.mp hd with ⟨r, _, hmr⟩
    rcases materializeOne_product hmr with ⟨p, hfind, hprod⟩
    exact ⟨p, List.mem_of_find?_eq_some hfind, hprod⟩
  · intro r hr
    have hfind : fcl.find? (fun p => p.id = refTargetId r) = none := by
      rw [List.find?_eq_none]
      intro p hp
      simpa using hr p hp
    simp [finalProducts, List.filterMap_cons, materializeOne_none hfind]
  · intro tid vid p v hfind hvid hfindv himg
    have hvars : ¬ (sanitize p).variants.isEmpty = true := by
      intro he
      rw [List.isEmpty_iff] at he
      rw [he] at hfindv
      exact absurd hfindv (by simp)
    unfold materializeOne
    simp only [refTargetId, hfind]
    rw [if_neg (by simp [hvid, hvars])]
    simp only [hfindv]
    rw [if_neg himg]
  · rw [hv1]
    exact dedupFirstAux_nodup _ []

/-- Witness for C6's amended clauses: a referenced variant id resolves and
its image is preferred. -/
theorem finalProducts_materialize_spec_witness :
    materializeOne [sampleProdV] (ProdRef.byObj (str "P1") (some (str "V1")))
      = some ⟨sanitize sampleProdV, sampleVariant.image,
          str "?variant=" ++ sampleVariant.id⟩ :=
  (finalProducts_materialize_spec [sampleProdV] []).2.2.1 (str "P1") (str "V1")
    sampleProdV sampleVariant (by decide) (by decide) (by decide) (by decide)

theorem startsL_iff : ∀ (l u : Str), startsL l u = true ↔ ∃ t, l = u ++ t := by
  intro l u
  induction u generalizing l with
  | nil => simp [startsL]
  | cons d ds ih =>
    cases l with
    | nil =>
      simp only [startsL, List.cons_append]
      constructor
      · intro h; exact absurd h (by simp)
      · rintro ⟨t, ht⟩; exact absurd ht (by simp)
    | cons c cs =>
      have hdef : startsL (c :: cs) (d :: ds) = (decide (c = d) && startsL cs ds) := rfl
      rw [hdef, Bool.and_eq_true, decide_eq_true_eq, ih]
      constructor
      · rintro ⟨hc, t, ht⟩
        exact ⟨t, by simp [hc, ht]⟩
      · rintro ⟨t, ht⟩
        have h1 : c = d ∧ cs = ds ++ t := by simpa using ht
        exact ⟨h1.1, t, h1.2⟩

theorem containsL_iff : ∀ (l u : Str), containsL l u = true ↔ ∃ x y, l = x ++ u ++ y := by
  intro l u
  induction l with
  | nil =>
    simp only [containsL, List.isEmpty_iff]
    constructor
    · intro h; exact ⟨[], [], by simp [h]⟩
    · rintro ⟨x, y, hx⟩
      rcases List.append_eq_nil.mp (List.append_eq_nil.mp hx.symm).1 with ⟨_, hu⟩
      exact hu
  | cons c cs ih =>
    rw [containsL, Bool.or_eq_true, startsL_iff, ih]
    constructor
    · rintro (⟨t, ht⟩ | ⟨x, y, hxy⟩)
      · exact ⟨[], t, by simp [ht]⟩
      · exact ⟨c :: x, y, by simp [hxy]⟩
    · rintro ⟨x, y, hxy⟩
      cases x with
      | nil => exact Or.inl ⟨y, by simpa using hxy⟩
      | cons x0 xs =>
        have h1 : c = x0 ∧ cs = xs ++ u ++ y := by simpa using hxy
        exact Or.inr ⟨xs, y, h1.2⟩

theorem containsL_of_decomp {l u : Str} (x y : Str) (h : l = x ++ u ++ y) :
    containsL l u = true := (containsL_iff l u).mpr ⟨x, y, h⟩

theorem containsL_append_right {l u : Str} (t : Str) (h : containsL l u = true) :
    containsL (l ++ t) u = true := by
  rcases (containsL_iff l u).mp h with ⟨x, y, hx⟩
  exact containsL_of_decomp x (y ++ t) (by simp [hx])

theorem containsL_append_left {t u : Str} (l : Str) (h : containsL t u = true) :
    containsL (l ++ t) u = true := by
  rcases (containsL_iff t u).mp h with ⟨x, y, hx⟩
  exact containsL_of_decomp (l ++ x) y (by simp [hx])

theorem containsL_tail {l u : Str} {c : Char} (h : containsL l (c :: u) = true) :
    containsL l u = true := by
  rcases (containsL_iff l (c :: u)).mp h with ⟨x, y, hxy⟩
  exact containsL_of_decomp (x ++ [c]) y (by simp [hxy])

theorem conceptStep_append (q : Str) (c : Concept) : ∃ t, conceptStep q c = q ++ t := by
  unfold conceptStep
  by_cases h1 : (c.matchList.any (fun m => includesWord q m)) = true
  · rw [if_pos h1]
    by_cases h2 : includesWord (q ++ (' ' :: c.canonical)) c.canonical = true
    · rw [if_pos h2]
      exact ⟨(' ' :: c.canonical) ++ (' ' :: joinSp c.matchList), by simp⟩
    · rw [if_neg h2]
      exact ⟨' ' :: c.canonical, rfl⟩
  · rw [if_neg h1]
    by_cases h2 : includesWord q c.canonical = true
    · rw [if_pos h2]
      exact ⟨' ' :: joinSp c.matchList, rfl⟩
    · rw [if_neg h2]
      exact ⟨[], by simp⟩

theorem colorStep_append (q : Str) (c : Concept) : ∃ t, colorStep q c = q ++ t := by
  unfold colorStep
  split
  · exact ⟨(' ' :: joinSp c.matchList) ++ [' '], by simp⟩
  · exact ⟨[], by simp⟩

theorem foldl_conceptStep_append :
    ∀ (cs : List Concept) (q : Str), ∃ t, List.foldl conceptStep q cs = q ++ t := by
  intro cs
  induction cs with
  | nil => intro q; exact ⟨[], by simp⟩
  | cons c cs ih =>
    intro q
    rcases conceptStep_append q c with ⟨t1, ht1⟩
    rcases ih (conceptStep q c) with ⟨t2, ht2⟩
    exact ⟨t1 ++ t2, by rw [List.foldl_cons, ht2, ht1, List.append_assoc]⟩

theorem foldl_colorStep_append :
    ∀ (cs : List Concept) (q : Str), ∃ t, List.foldl colorStep q cs = q ++ t := by
  intro cs
  induction cs with
  | nil => intro q; exact ⟨[], by simp⟩
  | cons c cs ih =>
    intro q
    rcases colorStep_append q c with ⟨t1, ht1⟩
    rcases ih (colorStep q c) with ⟨t2, ht2⟩
    exact ⟨t1 ++ t2, by rw [List.foldl_cons, ht2, ht1, List.append_assoc]⟩

theorem conceptStep_fires (q : Str) (c : Concept)
    (h : (c.matchList.any (fun m => includesWord q m)) = true) :
    ∃ t, conceptStep q c = (q ++ (' ' :: c.canonical)) ++ t := by
  unfold conceptStep
  rw [if_pos h]
  by_cases h2 : includesWord (q ++ (' ' :: c.canonical)) c.canonical = true
  · rw [if_pos h2]
    exact ⟨' ' :: joinSp c.matchList, rfl⟩
  · rw [if_neg h2]
    exact ⟨[], by simp⟩

theorem conceptStep_expands (q : Str) (c : Concept)
    (h : includesWord q c.canonical = true) :
    ∃ q1, conceptStep q c = q1 ++ (' ' :: joinSp c.matchList) := by
  unfold conceptStep
  by_cases h1 : (c.matchList.any (fun m => includesWord q m)) = true
  · rw [if_pos h1]
    have h2 : includesWord (q ++ (' ' :: c.canonical)) c.canonical = true :=
      containsL_append_right _ h
    rw [if_pos h2]
    exact ⟨q ++ (' ' :: c.canonical), rfl⟩
  · rw [if_neg h1, if_pos h]
    exact ⟨q, rfl⟩

theorem mem_joinSp {m : Str} : ∀ (ms : List Str), m ∈ ms →
    containsL (' ' :: joinSp ms) (' ' :: m) = true := by
  intro ms
  induction ms with
  | nil => intro h; exact absurd h (by simp)
  | cons m0 ms ih =>
    intro h
    rcases List.mem_cons.mp h with h | h
    · subst h
      cases ms with
      | nil => exact containsL_of_decomp [] [] (by simp [joinSp, joinWith])
      | cons m1 ms' =>
        exact containsL_of_decomp [] ([' '] ++ joinSp (m1 :: ms'))
          (by simp [joinSp, joinWith])
    · cases ms with
      | nil => exact absurd h (by simp)
      | cons m1 ms' =>
        have hsplit : (' ' :: joinSp (m0 :: m1 :: ms'))
            = (' ' :: m0) ++ (' ' :: joinSp (m1 :: ms')) := by
          simp [joinSp, joinWith]
        rw [hsplit]
        exact containsL_append_left _ (ih h)

theorem str_xxl : str "xxl" = 'x' :: 'x' :: 'l' :: [] := rfl

theorem str_xxxl : str "xxxl" = 'x' :: 'x' :: 'x' :: 'l' :: [] := rfl

theorem str_xxxxl : str "xxxxl" = 'x' :: 'x' :: 'x' :: 'x' :: 'l' :: [] := rfl

theorem matchSize_none_first {c : Char} {l : Str} (h : isXch c = false) :
    matchSize (c :: l) = none := by
  have hx : ¬ (jsCharLower c = 'x') := by simpa [isXch] using h
  have h1 : ∀ ts, stripCI ('x' :: ts) (c :: l) = none := fun ts => by
    show (if jsCharLower c = 'x' then stripCI ts l else none) = none
    rw [if_neg hx]
  unfold matchSize tryTok
  rw [str_xxl, str_xxxl, str_xxxxl, h1, h1, h1]
  rfl

theorem matchSize_none_second {c d : Char} {l : Str} (h : isXch d = false) :
    matchSize (c :: d :: l) = none := by
  have hx : ¬ (jsCharLower d = 'x') := by simpa [isXch] using h
  have h2 : ∀ ts, stripCI ('x' :: 'x' :: ts) (c :: d :: l) = none := fun ts => by
    show (if jsCharLower c = 'x' then stripCI ('x' :: ts) (d :: l) else none) = none
    by_cases hc : jsCharLower c = 'x'
    · rw [if_pos hc]
      show (if jsCharLower d = 'x' then stripCI ts l else none) = none
      rw [if_neg hx]
    · rw [if_neg hc]
  unfold matchSize tryTok
  rw [str_xxl, str_xxxl, str_xxxxl, h2, h2, h2]
  rfl

theorem stripCI_decomp : ∀ (t l r : Str), stripCI t l = some r →
    ∃ pre, l = pre ++ r ∧ jsLowerL pre = t := by
  intro t
  induction t with
  | nil =>
    intro l r h
    simp only [stripCI, Option.some_inj] at h
    exact ⟨[], by simp [h], rfl⟩
  | cons tc ts ih =>
    intro l r h
    cases l with
    | nil => exact absurd h (by simp [stripCI])
    | cons c cs =>
      have h' : (if jsCharLower c = tc then stripCI ts cs else none) = some r := h
      by_cases hc : jsCharLower c = tc
      · rw [if_pos hc] at h'
        rcases ih cs r h' with ⟨pre, hpre, hlow⟩
        refine ⟨c :: pre, by simp [hpre], ?_⟩
        simp [jsLowerL] at hlow ⊢
        exact ⟨hc, hlow⟩
      · rw [if_neg hc] at h'
        exact absurd h' (by simp)

theorem tryTok_decomp {tok repl l : Str} {pr : Str × Str}
    (h : tryTok tok repl l = some pr) :
    ∃ pre, l = pre ++ pr.2 ∧ jsLowerL pre = tok ∧ boundaryAfter pr.2 = true := by
  unfold tryTok at h
  split at h
  next r hs =>
    split at h
    · next hb =>
      have hpr := Option.some_inj.mp h
      subst hpr
      rcases stripCI_decomp tok l r hs with ⟨pre, hpre, hlow⟩
      exact ⟨pre, hpre, hlow, hb⟩
    · exact absurd h (by simp)
  next => exact absurd h (by simp)

theorem matchSize_decomp {l : Str} {pr : Str × Str} (h : matchSize l = some pr) :
    ∃ pre, l = pre ++ pr.2 ∧ boundaryAfter pr.2 = true ∧
      (jsLowerL pre = str "xxl" ∨ jsLowerL pre = str "xxxl" ∨ jsLowerL pre = str "xxxxl") := by
  unfold matchSize at h
  cases h1 : tryTok (str "xxl") (str "2xl") l with
  | some pr1 =>
    rw [h1] at h
    simp [Option.orElse] at h
    subst h
    rcases tryTok_decomp h1 with ⟨pre, hp, hl, hb⟩
    exact ⟨pre, hp, hb, Or.inl hl⟩
  | none =>
    rw [h1] at h
    simp only [Option.orElse] at h
    cases h2 : tryTok (str "xxxl") (str "3xl") l with
    | some pr2 =>
      rw [h2] at h
      simp [Option.orElse] at h
      subst h
      rcases tryTok_decomp h2 with ⟨pre, hp, hl, hb⟩
      exact ⟨pre, hp, hb, Or.inr (Or.inl hl)⟩
    | none =>
      rw [h2] at h
      simp only [Option.orElse] at h
      rcases tryTok_decomp h with ⟨pre, hp, hl, hb⟩
      exact ⟨pre, hp, hb, Or.inr (Or.inr hl)⟩

theorem safeScan_cons (p : Bool) (c : Char) (u : Str) :
    safeScan p (c :: u) =
      ((p || !isXch c ||
        (match u with
         | [] => false
         | d :: _ => !isXch d)) && safeScan (isWordChar c) u) := rfl

theorem sizeRun_copy : ∀ (u : Str) (p : Bool) (b : Str), safeScan p u = true →
    ∃ p', sizeRun p (u ++ b) = u ++ sizeRun p' b := by
  intro u
  induction u with
  | nil => intro p b _; exact ⟨p, by simp⟩
  | cons c u ih =>
    intro p b hsafe
    rw [safeScan_cons, Bool.and_eq_true] at hsafe
    rcases hsafe with ⟨hcond, htail⟩
    rw [List.cons_append, sizeRun_cons]
    by_cases hp : p = true
    · rw [if_pos hp]
      rcases ih (isWordChar c) b htail with ⟨p', hp'⟩
      exact ⟨p', by rw [hp']; simp⟩
    · have hp0 : p = false := by simpa using hp
      subst hp0
      rw [if_neg (by simp)]
      have hnone : matchSize (c :: (u ++ b)) = none := by
        by_cases hxc : isXch c = true
        · cases u with
          | nil => simp [hxc] at hcond
          | cons d u' =>
            have hd : isXch d = false := by
              rcases Bool.or_eq_true_iff.mp hcond with h | h
              · rcases Bool.or_eq_true_iff.mp h with h | h
                · exact absurd h (by simp)
                · rw [hxc] at h
                  exact absurd h (by simp)
              · simpa using h
            rw [List.cons_append]
            exact matchSize_none_second hd
        · have hxc' : isXch c = false := by simpa using hxc
          exact matchSize_none_first hxc'
      simp only [hnone]
      rcases ih (isWordChar c) b htail with ⟨p', hp'⟩
      exact ⟨p', by rw [hp']; simp⟩

theorem sizeRun_preserves :
    ∀ (n : Nat) (a : Str), a.length = n → ∀ (p : Bool) (u b : Str),
      u.head? = some ' ' →
      (∀ p₀, safeScan p₀ u = true) →
      ∃ x y, sizeRun p (a ++ (u ++ b)) = x ++ (u ++ y) := by
  intro n
  induction n using Nat.strong_induction_on with
  | _ n ih =>
    intro a ha p u b hhead hsafe
    cases a with
    | nil =>
      rcases sizeRun_copy u p b (hsafe p) with ⟨p', hp'⟩
      exact ⟨[], sizeRun p' b, by simpa using hp'⟩
    | cons c a' =>
      rw [List.cons_append, sizeRun_cons]
      by_cases hp : p = true
      · rw [if_pos hp]
        rcases ih a'.length (by subst ha; simp only [List.length_cons]; omega) a' rfl
          (isWordChar c) u b hhead hsafe with ⟨x, y, hxy⟩
        exact ⟨c :: x, y, by rw [hxy]; simp⟩
      · have hp0 : p = false := by simpa using hp
        subst hp0
        rw [if_neg (by simp)]
        cases hm : matchSize (c :: (a' ++ (u ++ b))) with
        | none =>
          rcases ih a'.length (by subst ha; simp only [List.length_cons]; omega) a' rfl
            (isWordChar c) u b hhead hsafe with ⟨x, y, hxy⟩
          exact ⟨c :: x, y, by rw [hxy]; simp⟩
        | some pr =>
          rcases matchSize_decomp hm with ⟨pre, hsplit, _, htok⟩
          have hprelen : 3 ≤ pre.length := by
            rcases htok with h | h | h <;>
              · have := congrArg List.length h
                simp [jsLowerL, str] at this
                omega
          obtain ⟨u', hu⟩ : ∃ u', u = ' ' :: u' := by
            cases u with
            | nil => exact absurd hhead (by simp)
            | cons uh ut =>
              have : uh = ' ' := by simpa using hhead
              exact ⟨ut, by rw [this]⟩
          have hsplit' : (c :: a') ++ (u ++ b) = pre ++ pr.2 := by
            simpa using hsplit
          have hno_space : ' ' ∉ pre := by
            intro hmem
            have hmem' : jsCharLower ' ' ∈ jsLowerL pre := List.mem_map_of_mem _ hmem
            have hsp : jsCharLower ' ' = ' ' := rfl
            rw [hsp] at hmem'
            rcases htok with h | h | h <;> rw [h] at hmem' <;> revert hmem' <;> decide
          have hpre_le : pre.length ≤ (c :: a').length := by
            by_contra hgt
            push_neg at hgt
            have hpre_eq : pre = ((c :: a') ++ (u ++ b)).take pre.length := by
              rw [hsplit']
              exact (List.take_left pre pr.2).symm
            have : ' ' ∈ pre := by
              rw [hpre_eq, List.take_append_eq_append_take]
              refine List.mem_append_right _ ?_
              rw [hu]
              have hk : 1 ≤ pre.length - (c :: a').length := by omega
              cases hk' : pre.length - (c :: a').length with
              | zero => omega
              | succ k => simp [List.take_cons]
            exact hno_space this
          have hrest : pr.2 = (c :: a').drop pre.length ++ (u ++ b) := by
            have h1 : pr.2 = ((c :: a') ++ (u ++ b)).drop pre.length := by
              rw [hsplit']
              exact (List.drop_left pre pr.2).symm
            rw [h1, List.drop_append_eq_append_drop]
            have : pre.length - (c :: a').length = 0 := by omega
            rw [this]
            simp
          rcases ih ((c :: a').drop pre.length).length
            (by subst ha
                simp only [List.length_drop, List.length_cons]
                omega)
            ((c :: a').drop pre.length) rfl true u b hhead hsafe with ⟨x, y, hxy⟩
          refine ⟨pr.1 ++ x, y, ?_⟩
          simp only [hm]
          rw [hrest, hxy]
          simp

theorem concepts_safe :
    ∀ c ∈ CONCEPTS, (safeScan false (' ' :: c.canonical) = true ∧
        safeScan true (' ' :: c.canonical) = true) ∧
      ∀ m ∈ c.matchList, safeScan false (' ' :: m) = true ∧ safeScan true (' ' :: m) = true := by
  decide

theorem containsL_sizeRewrite {q u : Str} (hu : u.head? = some ' ')
    (hsafe : ∀ p₀, safeScan p₀ u = true) (h : containsL q u = true) :
    containsL (sizeRewrite q) u = true := by
  rcases (containsL_iff q u).mp h with ⟨x, y, hxy⟩
  rcases sizeRun_preserves x.length x rfl false u y hu hsafe with ⟨x', y', hxy'⟩
  rw [sizeRewrite_eq_sizeRun, hxy, List.append_assoc, hxy']
  exact containsL_of_decomp x' y' (by simp)

set_option maxRecDepth 10000 in
/-- C7 counterexample: a query containing only the colloquial synonym
`"chamarra"` yields the canonical `"chaqueta"` but not the sibling synonym
`"zamarra"` — the colloquial form does not trigger the full expansion,
because the canonical term is appended without a trailing space and the
subsequent whole-word check for the canonical fails. -/
theorem normalizeQuery_bidirectional_counterexample :
    (⟨str "chaqueta", [str "chamarra", str "zamarra"]⟩ : Concept) ∈ CONCEPTS ∧
    str "chamarra" ∈ [str "chamarra", str "zamarra"] ∧
    includesWord (padQ (jsLowerL (str "chamarra"))) (str "chamarra") = true ∧
    containsL (normalizeQuery (str "chamarra")) (str "chaqueta") = true ∧
    containsL (normalizeQuery (str "chamarra")) (str "zamarra") = false := by
  refine ⟨by decide, by decide, by decide, by decide, by decide⟩

/-- C7 (amended): a query containing a registered synonym as a whole word
yields an augmented string containing the concept's canonical term, and a
query containing the canonical term as a whole word yields a string
containing every registered synonym; only the canonical form triggers the
full expansion (a colloquial synonym alone appends just the canonical
term). -/
theorem normalizeQuery_concept_expansion (c : Concept) (hc : c ∈ CONCEPTS) (query : Str) :
    ((∃ m, m ∈ c.matchList ∧ includesWord (padQ (jsLowerL query)) m = true) →
      containsL (normalizeQuery query) c.canonical = true) ∧
    (includesWord (padQ (jsLowerL query)) c.canonical = true →
      ∀ m, m ∈ c.matchList → containsL (normalizeQuery query) m = true) := by
  rcases List.append_of_mem hc with ⟨l1, l2, hl⟩
  have hsafety := concepts_safe c hc
  have hnq : normalizeQuery query = sizeRewrite (List.foldl colorStep
      (List.foldl conceptStep (padQ (jsLowerL query)) CONCEPTS) COLOR_CONCEPTS) := rfl
  constructor
  · rintro ⟨m, hm, hinc⟩
    rcases foldl_conceptStep_append l1 (padQ (jsLowerL query)) with ⟨t1, ht1⟩
    have hinc' : includesWord (List.foldl conceptStep (padQ (jsLowerL query)) l1) m
        = true := by
      rw [ht1]
      exact containsL_append_right _ hinc
    rcases conceptStep_fires (List.foldl conceptStep (padQ (jsLowerL query)) l1) c
      (List.any_eq_true.mpr ⟨m, hm, by simpa using hinc'⟩) with ⟨t2, ht2⟩
    rcases foldl_conceptStep_append l2
      (conceptStep (List.foldl conceptStep (padQ (jsLowerL query)) l1) c) with ⟨t3, ht3⟩
    have hq1 : containsL (List.foldl conceptStep (padQ (jsLowerL query)) CONCEPTS)
        (' ' :: c.canonical) = true := by
      rw [hl, List.foldl_append, List.foldl_cons, ht3, ht2]
      exact containsL_append_right _ (containsL_append_right _
        (containsL_of_decomp (List.foldl conceptStep (padQ (jsLowerL query)) l1) []
          (by simp)))
    rcases foldl_colorStep_append COLOR_CONCEPTS
      (List.foldl conceptStep (padQ (jsLowerL query)) CONCEPTS) with ⟨t4, ht4⟩
    have hq2 : containsL (List.foldl colorStep
        (List.foldl conceptStep (padQ (jsLowerL query)) CONCEPTS) COLOR_CONCEPTS)
        (' ' :: c.canonical) = true := by
      rw [ht4]
      exact containsL_append_right _ hq1
    have hfinal := containsL_sizeRewrite
      (show (' ' :: c.canonical).head? = some ' ' from rfl)
      (fun p₀ => by cases p₀
                    · exact hsafety.1.1
                    · exact hsafety.1.2) hq2
    rw [hnq]
    exact containsL_tail hfinal
  · intro hcanon m hm
    rcases foldl_conceptStep_append l1 (padQ (jsLowerL query)) with ⟨t1, ht1⟩
    have hinc' : includesWord (List.foldl conceptStep (padQ (jsLowerL query)) l1)
        c.canonical = true := by
      rw [ht1]
      exact containsL_append_right _ hcanon
    rcases conceptStep_expands (List.foldl conceptStep (padQ (jsLowerL query)) l1) c hinc'
      with ⟨q1, hq1eq⟩
    rcases foldl_conceptStep_append l2
      (conceptStep (List.foldl conceptStep (padQ (jsLowerL query)) l1) c) with ⟨t3, ht3⟩
    have hocc : containsL (List.foldl conceptStep (padQ (jsLowerL query)) CONCEPTS)
        (' ' :: m) = true := by
      rw [hl, List.foldl_append, List.foldl_cons, ht3, hq1eq]
      exact containsL_append_right _ (containsL_append_left _ (mem_joinSp c.matchList hm))
    rcases foldl_colorStep_append COLOR_CONCEPTS
      (List.foldl conceptStep (padQ (jsLowerL query)) CONCEPTS) with ⟨t4, ht4⟩
    have hq2 : containsL (List.foldl colorStep
        (List.foldl conceptStep (padQ (jsLowerL query)) CONCEPTS) COLOR_CONCEPTS)
        (' ' :: m) = true := by
      rw [ht4]
      exact containsL_append_right _ hocc
    have hfinal := containsL_sizeRewrite
      (show (' ' :: m).head? = some ' ' from rfl)
      (fun p₀ => by cases p₀
                    · exact (hsafety.2 m hm).1
                    · exact (hsafety.2 m hm).2) hq2
    rw [hnq]
    exact containsL_tail hfinal

set_option maxRecDepth 10000 in
/-- Witness for C7: `"chamarra"` produces the canonical `"chaqueta"`, and the
canonical `"chaqueta"` produces the synonym `"zamarra"`. -/
theorem normalizeQuery_concept_expansion_witness :
    containsL (normalizeQuery (str "chamarra")) (str "chaqueta") = true ∧
    containsL (normalizeQuery (str "chaqueta")) (str "zamarra") = true := by
  constructor
  · exact (normalizeQuery_concept_expansion
      ⟨str "chaqueta", [str "chamarra", str "zamarra"]⟩ (by decide) (str "chamarra")).1
      ⟨str "chamarra", by decide, by decide⟩
  · exact (normalizeQuery_concept_expansion
      ⟨str "chaqueta", [str "chamarra", str "zamarra"]⟩ (by decide) (str "chaqueta")).2
      (by decide) (str "zamarra") (by decide)

theorem sizeRun_copy_word : ∀ (w rest : Str), (∀ ch ∈ w, isWordChar ch = true) →
    sizeRun true (w ++ rest) = w ++ sizeRun true rest := by
  intro w
  induction w with
  | nil => intro rest _; simp
  | cons ch w ih =>
    intro rest hw
    rw [List.cons_append, sizeRun_cons, if_pos rfl, hw ch (by simp),
      ih rest (fun d hd => hw d (by simp [hd]))]
    rfl

theorem stripCI_of_lower : ∀ (w r : Str), stripCI (jsLowerL w) (w ++ r) = some r := by
  intro w
  induction w with
  | nil => intro r; rfl
  | cons c w ih =>
    intro r
    show (if jsCharLower c = jsCharLower c then stripCI (jsLowerL w) (w ++ r) else none)
      = some r
    rw [if_pos rfl, ih]

theorem tryTok_word {w : Str} (tok repl : Str) (h : jsLowerL w = tok) (d : Char)
    (rest : Str) (hd : isWordChar d = false) :
    tryTok tok repl (w ++ d :: rest) = some (repl, d :: rest) := by
  unfold tryTok
  rw [← h, stripCI_of_lower]
  simp [boundaryAfter, hd]

theorem isWordChar_jsCharLower {d : Char} (hd : isWordChar d = false) :
    isWordChar (jsCharLower d) = false := by
  unfold jsCharLower
  split
  · next h =>
    exfalso
    have hw : isWordChar d = true := by
      simp only [isWordChar, Bool.or_eq_true, Bool.and_eq_true, decide_eq_true_eq]
      exact Or.inl (Or.inl (Or.inr ⟨h.1, h.2⟩))
    rw [hw] at hd
    exact absurd hd (by simp)
  · split
    · decide
    · split
      · decide
      · split
        · decide
        · split
          · decide
          · split
            · decide
            · split
              · decide
              · split
                · decide
                · exact hd

theorem tryTok_none_of_word {w tok repl : Str} {d : Char} {rest : Str}
    (hwword : ∀ ch ∈ w, isWordChar ch = true) (hd : isWordChar d = false)
    (htokword : ∀ ch ∈ tok, isWordChar ch = true)
    (hne : jsLowerL w ≠ tok) :
    tryTok tok repl (w ++ d :: rest) = none := by
  cases he : tryTok tok repl (w ++ d :: rest) with
  | none => rfl
  | some pr =>
    exfalso
    rcases tryTok_decomp he with ⟨pre, hsplit, hlow, hb⟩
    have hplen : pre.length = tok.length := by
      rw [← hlow]
      simp [jsLowerL]
    rcases Nat.lt_trichotomy pre.length w.length with hlt | heq | hgt
    · have hrest : pr.2 = w.drop pre.length ++ d :: rest := by
        have h2 : pr.2 = (w ++ d :: rest).drop pre.length := by
          rw [hsplit]
          exact (List.drop_left pre pr.2).symm
        rw [h2, List.drop_append_eq_append_drop]
        have hz : pre.length - w.length = 0 := by omega
        rw [hz]
        simp
      obtain ⟨ch, t, hch⟩ : ∃ ch t, w.drop pre.length = ch :: t := by
        cases hdw : w.drop pre.length with
        | nil =>
          have := congrArg List.length hdw
          simp [List.length_drop] at this
          omega
        | cons ch t => exact ⟨ch, t, rfl⟩
      have hchw : ch ∈ w := List.drop_subset pre.length w (by rw [hch]; simp)
      rw [hrest, hch] at hb
      simp [boundaryAfter, hwword ch hchw] at hb
    · have hpre_eq : pre = w := by
        have h1 : pre = (w ++ d :: rest).take pre.length := by
          rw [hsplit]
          exact (List.take_left pre pr.2).symm
        rw [h1, heq, List.take_left]
      exact hne (hpre_eq ▸ hlow)
    · have hdmem : d ∈ pre := by
        have h1 : pre = (w ++ d :: rest).take pre.length := by
          rw [hsplit]
          exact (List.take_left pre pr.2).symm
        rw [h1, List.take_append_eq_append_take]
        refine List.mem_append_right _ ?_
        have hk : 1 ≤ pre.length - w.length := by omega
        cases hk' : pre.length - w.length with
        | zero => omega
        | succ k => simp [List.take_cons]
      have hdlow : jsCharLower d ∈ tok := hlow ▸ List.mem_map_of_mem _ hdmem
      have h1 := htokword _ hdlow
      rw [isWordChar_jsCharLower hd] at h1
      exact absurd h1 (by simp)

theorem matchSize_word_xxl {w : Str} (h : jsLowerL w = str "xxl") (d : Char) (rest : Str)
    (hd : isWordChar d = false) :
    matchSize (w ++ d :: rest) = some (str "2xl", d :: rest) := by
  unfold matchSize
  rw [tryTok_word (str "xxl") (str "2xl") h d rest hd]
  rfl

theorem matchSize_word_xxxl {w : Str} (hwword : ∀ ch ∈ w, isWordChar ch = true)
    (h : jsLowerL w = str "xxxl") (d : Char) (rest : Str) (hd : isWordChar d = false) :
    matchSize (w ++ d :: rest) = some (str "3xl", d :: rest) := by
  unfold matchSize
  rw [tryTok_none_of_word hwword hd (by decide) (by rw [h]; decide),
    tryTok_word (str "xxxl") (str "3xl") h d rest hd]
  rfl

theorem matchSize_word_xxxxl {w : Str} (hwword : ∀ ch ∈ w, isWordChar ch = true)
    (h : jsLowerL w = str "xxxxl") (d : Char) (rest : Str) (hd : isWordChar d = false) :
    matchSize (w ++ d :: rest) = some (str "4xl", d :: rest) := by
  unfold matchSize
  rw [tryTok_none_of_word hwword hd (by decide) (by rw [h]; decide),
    tryTok_none_of_word hwword hd (by decide) (by rw [h]; decide),
    tryTok_word (str "xxxxl") (str "4xl") h d rest hd]
  rfl

theorem matchSize_word_none {w : Str} {d : Char} {rest : Str}
    (hwword : ∀ ch ∈ w, isWordChar ch = true) (hd : isWordChar d = false)
    (h1 : jsLowerL w ≠ str "xxl") (h2 : jsLowerL w ≠ str "xxxl")
    (h3 : jsLowerL w ≠ str "xxxxl") :
    matchSize (w ++ d :: rest) = none := by
  unfold matchSize
  rw [tryTok_none_of_word hwword hd (by decide) h1,
    tryTok_none_of_word hwword hd (by decide) h2,
    tryTok_none_of_word hwword hd (by decide) h3]
  rfl

theorem wordsJoin_head : ∀ (ws : List Str), ∃ t, wordsJoin ws = ' ' :: t := by
  intro ws
  cases ws with
  | nil => exact ⟨[], rfl⟩
  | cons w ws => exact ⟨w ++ wordsJoin ws, rfl⟩

theorem sizeRun_space (p : Bool) (x : Str) :
    sizeRun p (' ' :: x) = ' ' :: sizeRun false x := by
  rw [sizeRun_cons]
  cases p with
  | true => rfl
  | false =>
    rw [if_neg (by simp), matchSize_none_first (by decide)]
    rfl

theorem sizeRun_wordsJoin : ∀ (ws : List Str),
    (∀ w ∈ ws, w ≠ [] ∧ ∀ ch ∈ w, isWordChar ch = true) →
    ∀ (p : Bool), sizeRun p (wordsJoin ws) = wordsJoin (ws.map rewriteWord) := by
  intro ws
  induction ws with
  | nil =>
    intro _ p
    show sizeRun p [' '] = [' ']
    rw [sizeRun_space]
    rfl
  | cons w ws ih =>
    intro hw p
    have hwne : w ≠ [] := (hw w (by simp)).1
    have hwword : ∀ ch ∈ w, isWordChar ch = true := (hw w (by simp)).2
    have hws : ∀ v ∈ ws, v ≠ [] ∧ ∀ ch ∈ v, isWordChar ch = true :=
      fun v hv => hw v (by simp [hv])
    rcases wordsJoin_head ws with ⟨t, hjt⟩
    show sizeRun p (' ' :: (w ++ wordsJoin ws)) = ' ' :: (rewriteWord w ++ wordsJoin (ws.map rewriteWord))
    rw [sizeRun_space]
    obtain ⟨wc, w', hwc⟩ : ∃ wc w', w = wc :: w' := by
      cases w with
      | nil => exact absurd rfl hwne
      | cons wc w' => exact ⟨wc, w', rfl⟩
    by_cases hx1 : jsLowerL w = str "xxl"
    · have hm : matchSize (w ++ ' ' :: t) = some (str "2xl", ' ' :: t) :=
        matchSize_word_xxl hx1 ' ' t (by decide)
      rw [hjt, hwc, List.cons_append, sizeRun_cons, if_neg (by simp)]
      rw [← List.cons_append, ← hwc]
      simp only [hm]
      rw [← hjt, ih hws true]
      have hrw : rewriteWord w = str "2xl" := by rw [rewriteWord, if_pos hx1]
      rw [hrw]
    · by_cases hx2 : jsLowerL w = str "xxxl"
      · have hm : matchSize (w ++ ' ' :: t) = some (str "3xl", ' ' :: t) :=
          matchSize_word_xxxl hwword hx2 ' ' t (by decide)
        rw [hjt, hwc, List.cons_append, sizeRun_cons, if_neg (by simp)]
        rw [← List.cons_append, ← hwc]
        simp only [hm]
        rw [← hjt, ih hws true]
        have hrw : rewriteWord w = str "3xl" := by
          rw [rewriteWord, if_neg hx1, if_pos hx2]
        rw [hrw]
      · by_cases hx3 : jsLowerL w = str "xxxxl"
        · have hm : matchSize (w ++ ' ' :: t) = some (str "4xl", ' ' :: t) :=
            matchSize_word_xxxxl hwword hx3 ' ' t (by decide)
          rw [hjt, hwc, List.cons_append, sizeRun_cons, if_neg (by simp)]
          rw [← List.cons_append, ← hwc]
          simp only [hm]
          rw [← hjt, ih hws true]
          have hrw : rewriteWord w = str "4xl" := by
            rw [rewriteWord, if_neg hx1, if_neg hx2, if_pos hx3]
          rw [hrw]
        · have hm : matchSize (w ++ ' ' :: t) = none :=
            matchSize_word_none hwword (by decide) hx1 hx2 hx3
          rw [hjt, hwc, List.cons_append, sizeRun_cons, if_neg (by simp)]
          rw [← List.cons_append, ← hwc]
          simp only [hm]
          have hrw : rewriteWord w = w := by
            rw [rewriteWord, if_neg hx1, if_neg hx2, if_neg hx3]
          rw [hrw, hwword wc (by rw [hwc]; simp),
            sizeRun_copy_word w' (' ' :: t)
              (fun ch hch => hwword ch (by rw [hwc]; simp [hch])),
            ← hjt, ih hws true, hwc]
          rfl

/-- C9: the size-rewrite step of the normalizer rewrites each whole-word
occurrence of `xxl`/`xxxl`/`xxxxl` (case-insensitively) to `2xl`/`3xl`/`4xl`
respectively and leaves every other token unmodified: on any space-delimited
word sequence the scan acts exactly word-by-word as `rewriteWord`, which maps
the three registered tokens and is the identity elsewhere (e.g. on `m` and
`lx`). -/
theorem sizeRewrite_words_spec (ws : List Str)
    (h : ∀ w ∈ ws, w ≠ [] ∧ ∀ ch ∈ w, isWordChar ch = true) :
    sizeRewrite (wordsJoin ws) = wordsJoin (ws.map rewriteWord) ∧
    rewriteWord (str "xxl") = str "2xl" ∧
    rewriteWord (str "XXL") = str "2xl" ∧
    rewriteWord (str "xxxl") = str "3xl" ∧
    rewriteWord (str "xxxxl") = str "4xl" ∧
    rewriteWord (str "m") = str "m" ∧
    rewriteWord (str "lx") = str "lx" ∧
    sizeRewrite (str " talla XXL ") = str " talla 2xl " ∧
    sizeRewrite (str " m lx ") = str " m lx " ∧
    (∀ q, normalizeQuery q = sizeRewrite (List.foldl colorStep
      (List.foldl conceptStep (padQ (jsLowerL q)) CONCEPTS) COLOR_CONCEPTS)) := by
  refine ⟨?_, by decide, by decide, by decide, by decide, by decide, by decide,
    by decide, by decide, fun _ => rfl⟩
  rw [sizeRewrite_eq_sizeRun]
  exact sizeRun_wordsJoin ws h false

/-- Witness for C9 at the word sequence `talla xxl`. -/
theorem sizeRewrite_words_spec_witness :
    sizeRewrite (wordsJoin [str "talla", str "xxl"])
      = wordsJoin ([str "talla", str "xxl"].map rewriteWord) :=
  (sizeRewrite_words_spec [str "talla", str "xxl"] (by decide)).1

end Izas
